import Mathlib

/-!
# Verification of the `btengine` backtesting core

Shallow embedding of the simulation kernel of the `tbot_funding_arb`
repository (`src/btengine/...`) in Lean 4, together with proofs of the
behavioural claims made by the natural-language specification.

Conventions of the embedding:
* Python `float` values are modelled as exact rationals (`ℚ`); the numeric
  literals `1e-12`, `1e-9`, `1e-6` of the source become the rationals
  `1/10^12`, `1/10^9`, `1/10^6`.
* Python dictionaries with default-on-miss access (`Portfolio.positions`,
  `EngineContext._last_funding_applied_ms`) are modelled as total functions
  from the key type, mapping absent keys to the default the source supplies
  (`Position()` resp. `-1`).
* Python dictionaries that are iterated in price order (`L2Book.bids/asks`,
  `SimBroker._maker_orders`) are modelled as association lists with unique
  keys; the lazy best-of-side heaps of `L2Book` are an optimisation and are
  modelled by their observable behaviour (maximum/minimum key with positive
  quantity).
* `math.nan` results are modelled with `Option`: `none` stands for NaN.
* A Python `raise` is modelled with `Except String` / `Option`.
-/

namespace BtEngine

/-- `Side` from `btengine/types.py`: `"buy" | "sell"`. -/
inductive Side where
  | buy
  | sell
deriving DecidableEq, Repr

/-- Dust threshold `1e-12` used by `Portfolio.apply_fill` and
`consume_taker_fill` (`eps_qty`). -/
def dustEps : ℚ := 1 / 10 ^ 12

/-- Absolute price tolerance `1e-9` used by `MakerQueueOrder.on_trade` and
`SimBroker.on_depth_update`. -/
def priceEps : ℚ := 1 / 10 ^ 9

/-- Notional tolerance `1e-6` (`eps_notional`) used by `L2Book.impact_vwap`. -/
def notionalEps : ℚ := 1 / 10 ^ 6

/-! ## Portfolio (`btengine/portfolio.py`) -/

/-- `Position` dataclass: signed base quantity and average entry price. -/
structure Position where
  qty : ℚ := 0
  avg_price : ℚ := 0
deriving DecidableEq, Repr

/-- `Portfolio` dataclass.  The `positions` dict is modelled as a total
function; `Portfolio._pos` materialises `Position()` (all zeroes) on a miss,
so an absent key behaves exactly like the default position. -/
structure Portfolio where
  realized_pnl_usdt : ℚ := 0
  fees_paid_usdt : ℚ := 0
  positions : String → Position := fun _ => {}

/-- The fresh portfolio `Portfolio()`. -/
def Portfolio.empty : Portfolio := {}

/-- Update one symbol's position. -/
def Portfolio.setPos (pf : Portfolio) (symbol : String) (p : Position) : Portfolio :=
  { pf with positions := fun s => if s = symbol then p else pf.positions s }

/-- Python's `abs` on a rational, written with an explicit test so that it
evaluates by kernel reduction. -/
def rabs (x : ℚ) : ℚ := if x < 0 then -x else x

/-- Signed sign factor `1.0 if pos.qty > 0 else -1.0` from the source. -/
def signFactor (q : ℚ) : ℚ := if 0 < q then 1 else -1

/-- `Portfolio.apply_fill(symbol, side, qty, price, fee_usdt)`, translated
branch by branch from `btengine/portfolio.py`. -/
def Portfolio.apply_fill (pf : Portfolio) (symbol : String) (side : Side)
    (qty price fee_usdt : ℚ) : Portfolio :=
  if qty ≤ 0 then pf
  else
    let pos := pf.positions symbol
    let signed : ℚ := match side with | .buy => qty | .sell => -qty
    let new_qty0 := pos.qty + signed
    -- Avoid tiny floating residuals becoming unintended flips / dust positions.
    let new_qty := if rabs new_qty0 ≤ dustEps then 0 else new_qty0
    -- Fee is always a cost.
    let pf1 := { pf with
      fees_paid_usdt := pf.fees_paid_usdt + fee_usdt,
      realized_pnl_usdt := pf.realized_pnl_usdt - fee_usdt }
    -- Full close (without flip): realize PnL and reset avg_price.
    if new_qty = 0 ∧ pos.qty ≠ 0 then
      let closed_qty := rabs pos.qty
      let pnl := closed_qty * (price - pos.avg_price) * signFactor pos.qty
      { pf1 with realized_pnl_usdt := pf1.realized_pnl_usdt + pnl
        }.setPos symbol ⟨0, 0⟩
    else if pos.qty = 0 ∨ (0 < pos.qty ∧ 0 < new_qty) ∨ (pos.qty < 0 ∧ new_qty < 0) then
      -- Position direction stays the same (or was flat): update avg_price.
      if new_qty = 0 then
        pf1.setPos symbol ⟨0, 0⟩
      else if pos.qty = 0 then
        pf1.setPos symbol ⟨new_qty, price⟩
      else if rabs pos.qty < rabs new_qty then
        -- Increasing same-direction exposure.
        let old_notional := rabs pos.qty * pos.avg_price
        let add_notional := rabs signed * price
        pf1.setPos symbol ⟨new_qty, (old_notional + add_notional) / rabs new_qty⟩
      else
        -- Reducing without flipping: realize pnl for the reduced part.
        let closed_qty := rabs signed
        let pnl := closed_qty * (price - pos.avg_price) * signFactor pos.qty
        { pf1 with realized_pnl_usdt := pf1.realized_pnl_usdt + pnl
          }.setPos symbol ⟨new_qty, if new_qty = 0 then 0 else pos.avg_price⟩
    else
      -- Position flipped direction: close old fully, open new residual.
      let closed_qty := rabs pos.qty
      let pnl := closed_qty * (price - pos.avg_price) * signFactor pos.qty
      { pf1 with realized_pnl_usdt := pf1.realized_pnl_usdt + pnl
        }.setPos symbol ⟨new_qty, price⟩

/-- `Portfolio.apply_funding(symbol, mark_price, funding_rate)`: returns the
updated portfolio together with the funding pnl applied. -/
def Portfolio.apply_funding (pf : Portfolio) (symbol : String)
    (mark_price funding_rate : ℚ) : Portfolio × ℚ :=
  let pos := pf.positions symbol
  if pos.qty = 0 then (pf, 0)
  else
    let pnl := -(pos.qty * mark_price) * funding_rate
    ({ pf with realized_pnl_usdt := pf.realized_pnl_usdt + pnl }, pnl)

/-! ## Portfolio round-trip lemmas (claim C1) -/

theorem Portfolio.setPos_positions_self (pf : Portfolio) (sym : String) (p : Position) :
    (pf.setPos sym p).positions sym = p := by
  simp [Portfolio.setPos]

/-- Opening a long from a flat position: the fill sets `qty := quantity` and
`avg_price := price`, and only the fee moves the PnL accounts. -/
theorem apply_fill_open_buy (pf : Portfolio) (sym : String) (qty price fee : ℚ)
    (hpos : pf.positions sym = ⟨0, 0⟩) (hq : dustEps < qty) :
    pf.apply_fill sym .buy qty price fee =
      ({ pf with fees_paid_usdt := pf.fees_paid_usdt + fee,
                 realized_pnl_usdt := pf.realized_pnl_usdt - fee }).setPos sym ⟨qty, price⟩ := by
  have hd : (0:ℚ) < dustEps := by norm_num [dustEps]
  have hq0 : 0 < qty := lt_trans hd hq
  simp only [Portfolio.apply_fill, hpos, rabs]
  rw [if_neg (not_le.mpr hq0)]
  norm_num
  simp only [if_neg (not_lt.mpr hq0.le)]
  rw [if_neg (show ¬(dustEps < qty → qty = 0) by push_neg; exact ⟨hq, ne_of_gt hq0⟩),
      if_neg (not_le.mpr hq)]

/-- Selling the exact open long quantity takes the full-close branch:
realized PnL gains `q × (price − avg)` and the position resets to `⟨0, 0⟩`. -/
theorem apply_fill_close_long (pf : Portfolio) (sym : String) (q a price fee : ℚ)
    (hpos : pf.positions sym = ⟨q, a⟩) (hq : 0 < q) :
    pf.apply_fill sym .sell q price fee =
      ({ pf with fees_paid_usdt := pf.fees_paid_usdt + fee,
                 realized_pnl_usdt := pf.realized_pnl_usdt - fee + q * (price - a)
       }).setPos sym ⟨0, 0⟩ := by
  have hd : (0:ℚ) ≤ dustEps := by norm_num [dustEps]
  simp only [Portfolio.apply_fill, hpos, rabs, signFactor]
  rw [if_neg (not_le.mpr hq)]
  simp only [add_neg_cancel, lt_irrefl, if_false, if_pos hd, if_pos hq]
  norm_num [ne_of_gt hq]
  rw [if_neg (not_lt.mpr hq.le)]

/-- C1 (amended): for every symbol, quantity `X` strictly above the dust
threshold `1e-12` and prices `P1, P2 > 0`, buying `X` at `P1` and then selling
`X` at `P2` with zero fees, starting flat, realizes exactly `X × (P2 − P1)`
and leaves the position flat (`qty = 0`, `avg_price = 0`); in particular for
`P1 = P2` the realized PnL is `0`. -/
theorem claim1_round_trip_pnl (sym : String) (X P1 P2 : ℚ)
    (hX : dustEps < X) (_hP1 : 0 < P1) (_hP2 : 0 < P2) :
    (((Portfolio.empty.apply_fill sym .buy X P1 0).apply_fill sym .sell X P2 0).realized_pnl_usdt
        = X * (P2 - P1)) ∧
    (((Portfolio.empty.apply_fill sym .buy X P1 0).apply_fill sym .sell X P2 0).positions sym).qty
        = 0 ∧
    (((Portfolio.empty.apply_fill sym .buy X P1 0).apply_fill sym .sell X P2 0).positions
        sym).avg_price = 0 := by
  have hd : (0:ℚ) < dustEps := by norm_num [dustEps]
  have hX0 : 0 < X := lt_trans hd hX
  rw [apply_fill_open_buy Portfolio.empty sym X P1 0 rfl hX]
  rw [apply_fill_close_long _ sym X P1 P2 0 (Portfolio.setPos_positions_self _ sym _) hX0]
  refine ⟨?_, ?_, ?_⟩
  · simp [Portfolio.setPos, Portfolio.empty]
  · simp [Portfolio.setPos]
  · simp [Portfolio.setPos]

/-- C1 witness: the amended round-trip theorem instantiated at
`X = 1`, `P1 = 1`, `P2 = 2` with all hypotheses discharged concretely. -/
theorem claim1_round_trip_pnl_witness :
    dustEps < (1:ℚ) ∧ (0:ℚ) < 1 ∧ (0:ℚ) < 2 ∧
    ((((Portfolio.empty.apply_fill "S" .buy 1 1 0).apply_fill "S" .sell 1 2 0).realized_pnl_usdt
        = 1 * (2 - 1)) ∧
     ((((Portfolio.empty.apply_fill "S" .buy 1 1 0).apply_fill "S" .sell 1 2 0).positions
        "S").qty = 0) ∧
     ((((Portfolio.empty.apply_fill "S" .buy 1 1 0).apply_fill "S" .sell 1 2 0).positions
        "S").avg_price = 0)) :=
  ⟨by norm_num [dustEps], by norm_num, by norm_num,
   claim1_round_trip_pnl "S" 1 1 2 (by norm_num [dustEps]) (by norm_num) (by norm_num)⟩

/-- C1 counterexample: for the dust quantity `X = 1e-13 > 0` and prices
`P1 = 1`, `P2 = 2`, the code snaps both fills to a flat position, so the
realized PnL is `0` and not `X × (P2 − P1) = 1e-13` as the claim states. -/
theorem claim1_counterexample :
    ((Portfolio.empty.apply_fill "S" .buy (1/10^13) 1 0).apply_fill "S"
        .sell (1/10^13) 2 0).realized_pnl_usdt ≠ (1/10^13 : ℚ) * (2 - 1) := by
  with_unfolding_all decide

/-! ## Funding gating (`btengine/engine.py`, `EngineContext.apply_funding_if_due`) -/

/-- `MarkPrice` event from `btengine/types.py`. -/
structure MarkPrice where
  received_time_ns : ℤ := 0
  event_time_ms : ℤ
  symbol : String
  mark_price : ℚ
  index_price : ℚ := 0
  funding_rate : ℚ
  next_funding_time_ms : ℤ

/-- The funding-relevant slice of `EngineContext`: the broker's portfolio and
the `_last_funding_applied_ms` dict, modelled as a total function whose
default value is the `-1` that `dict.get(symbol, -1)` supplies on a miss. -/
structure FundingCtx where
  portfolio : Portfolio
  last_funding_applied_ms : String → ℤ := fun _ => -1

/-- The gating condition of `EngineContext.apply_funding_if_due`: funding is
applied iff none of the three early returns fire. -/
def fundingApplies (ctx : FundingCtx) (mp : MarkPrice) : Prop :=
  0 < mp.next_funding_time_ms ∧ mp.next_funding_time_ms ≤ mp.event_time_ms ∧
    ctx.last_funding_applied_ms mp.symbol < mp.next_funding_time_ms

instance (ctx : FundingCtx) (mp : MarkPrice) : Decidable (fundingApplies ctx mp) := by
  unfold fundingApplies; infer_instance

/-- `EngineContext.apply_funding_if_due(mp)`, translated guard by guard from
`btengine/engine.py`; returns the new context and the applied funding pnl. -/
def applyFundingIfDue (ctx : FundingCtx) (mp : MarkPrice) : FundingCtx × ℚ :=
  if mp.next_funding_time_ms ≤ 0 then (ctx, 0)
  else if mp.event_time_ms < mp.next_funding_time_ms then (ctx, 0)
  else if mp.next_funding_time_ms ≤ ctx.last_funding_applied_ms mp.symbol then (ctx, 0)
  else
    let res := ctx.portfolio.apply_funding mp.symbol mp.mark_price mp.funding_rate
    ({ portfolio := res.1,
       last_funding_applied_ms := fun s =>
         if s = mp.symbol then mp.next_funding_time_ms else ctx.last_funding_applied_ms s },
     res.2)

/-- Folding a stream of `MarkPrice` events through the funding gate. -/
def processMarks (ctx : FundingCtx) : List MarkPrice → FundingCtx
  | [] => ctx
  | mp :: rest => processMarks (applyFundingIfDue ctx mp).1 rest

/-- Number of events of a stream at which the funding gate actually fires. -/
def appliedCount (ctx : FundingCtx) : List MarkPrice → ℕ
  | [] => 0
  | mp :: rest =>
      (if fundingApplies ctx mp then 1 else 0) +
        appliedCount (applyFundingIfDue ctx mp).1 rest

theorem applyFundingIfDue_not_applies (ctx : FundingCtx) (mp : MarkPrice)
    (h : ¬ fundingApplies ctx mp) : applyFundingIfDue ctx mp = (ctx, 0) := by
  unfold applyFundingIfDue
  unfold fundingApplies at h
  push_neg at h
  by_cases h1 : mp.next_funding_time_ms ≤ 0
  · rw [if_pos h1]
  · rw [if_neg h1]
    by_cases h2 : mp.event_time_ms < mp.next_funding_time_ms
    · rw [if_pos h2]
    · rw [if_neg h2]
      rw [if_pos]
      exact h (lt_of_not_le h1) (le_of_not_lt h2)

theorem applyFundingIfDue_applies (ctx : FundingCtx) (mp : MarkPrice)
    (h : fundingApplies ctx mp) :
    (applyFundingIfDue ctx mp).1.last_funding_applied_ms mp.symbol
        = mp.next_funding_time_ms ∧
    (applyFundingIfDue ctx mp).2
        = -((ctx.portfolio.positions mp.symbol).qty * mp.mark_price) * mp.funding_rate ∧
    (applyFundingIfDue ctx mp).1.portfolio.realized_pnl_usdt
        = ctx.portfolio.realized_pnl_usdt + (applyFundingIfDue ctx mp).2 := by
  obtain ⟨h1, h2, h3⟩ := h
  unfold applyFundingIfDue
  rw [if_neg (not_le.mpr h1), if_neg (not_lt.mpr h2), if_neg (not_le.mpr h3)]
  unfold Portfolio.apply_funding
  by_cases hq : (ctx.portfolio.positions mp.symbol).qty = 0
  · simp [hq]
  · simp [hq]

theorem processMarks_stable (sym : String) (T : ℤ) (ctx : FundingCtx)
    (l : List MarkPrice)
    (hnft : ∀ mp ∈ l, mp.next_funding_time_ms = T)
    (hsym : ∀ mp ∈ l, mp.symbol = sym)
    (hlast : T ≤ ctx.last_funding_applied_ms sym) :
    processMarks ctx l = ctx ∧ appliedCount ctx l = 0 := by
  induction l with
  | nil => exact ⟨rfl, rfl⟩
  | cons mp rest ih =>
      have hmp : mp.next_funding_time_ms = T := hnft mp (List.mem_cons_self mp rest)
      have hs : mp.symbol = sym := hsym mp (List.mem_cons_self mp rest)
      have hna : ¬ fundingApplies ctx mp := by
        intro ⟨_, _, h3⟩
        rw [hs, hmp] at h3
        exact absurd hlast (not_le.mpr h3)
      have hstep := applyFundingIfDue_not_applies ctx mp hna
      have ihout := ih (fun m hm => hnft m (List.mem_cons_of_mem mp hm))
        (fun m hm => hsym m (List.mem_cons_of_mem mp hm))
      refine ⟨?_, ?_⟩
      · show processMarks (applyFundingIfDue ctx mp).1 rest = ctx
        rw [hstep]
        exact (ihout).1
      · show (if fundingApplies ctx mp then 1 else 0) +
            appliedCount (applyFundingIfDue ctx mp).1 rest = 0
        rw [if_neg hna, hstep]
        simpa using (ihout).2

/-- C2: over any stream of `MarkPrice` events of one symbol that share the
same `next_funding_time_ms = T > 0`, (i) the funding gate fires at most once;
(ii) it fires at an event iff `event_time_ms ≥ T` and `T` exceeds the symbol's
`last_funding_applied` entry; (iii) when it fires it records
`last_funding_applied := T`, applies `−q × mark_price × funding_rate` (which is
`0` for a flat position) to the realized PnL; (iv) when it does not fire the
context is untouched and `0` is returned; and (v) once `last_funding_applied ≥
T`, processing any further events with the same `T` changes nothing. -/
theorem claim2_funding_applied_once (ctx : FundingCtx) (sym : String) (T : ℤ)
    (l : List MarkPrice) (hT : 0 < T)
    (hnft : ∀ mp ∈ l, mp.next_funding_time_ms = T)
    (hsym : ∀ mp ∈ l, mp.symbol = sym) :
    appliedCount ctx l ≤ 1 ∧
    (∀ mp ∈ l, fundingApplies ctx mp ↔
        (T ≤ mp.event_time_ms ∧ ctx.last_funding_applied_ms sym < T)) ∧
    (∀ mp, fundingApplies ctx mp →
        (applyFundingIfDue ctx mp).1.last_funding_applied_ms mp.symbol
            = mp.next_funding_time_ms ∧
        (applyFundingIfDue ctx mp).2
            = -((ctx.portfolio.positions mp.symbol).qty * mp.mark_price) * mp.funding_rate ∧
        (applyFundingIfDue ctx mp).1.portfolio.realized_pnl_usdt
            = ctx.portfolio.realized_pnl_usdt + (applyFundingIfDue ctx mp).2) ∧
    (∀ mp, ¬ fundingApplies ctx mp → applyFundingIfDue ctx mp = (ctx, 0)) ∧
    (T ≤ ctx.last_funding_applied_ms sym → processMarks ctx l = ctx) := by
  refine ⟨?_, ?_, fun mp h => applyFundingIfDue_applies ctx mp h,
      fun mp h => applyFundingIfDue_not_applies ctx mp h,
      fun h => (processMarks_stable sym T ctx l hnft hsym h).1⟩
  · induction l generalizing ctx with
    | nil => simp [appliedCount]
    | cons mp rest ih =>
        have hmp : mp.next_funding_time_ms = T := hnft mp (List.mem_cons_self mp rest)
        have hs : mp.symbol = sym := hsym mp (List.mem_cons_self mp rest)
        show (if fundingApplies ctx mp then 1 else 0) +
            appliedCount (applyFundingIfDue ctx mp).1 rest ≤ 1
        by_cases ha : fundingApplies ctx mp
        · rw [if_pos ha]
          have hlast : T ≤ (applyFundingIfDue ctx mp).1.last_funding_applied_ms sym := by
            have := (applyFundingIfDue_applies ctx mp ha).1
            rw [hs] at this
            rw [this, hmp]
          have hzero := (processMarks_stable sym T (applyFundingIfDue ctx mp).1 rest
            (fun m hm => hnft m (List.mem_cons_of_mem mp hm))
            (fun m hm => hsym m (List.mem_cons_of_mem mp hm)) hlast).2
          omega
        · rw [if_neg ha, applyFundingIfDue_not_applies ctx mp ha]
          simpa using ih ctx (fun m hm => hnft m (List.mem_cons_of_mem mp hm))
            (fun m hm => hsym m (List.mem_cons_of_mem mp hm))
  · intro mp hm
    unfold fundingApplies
    rw [hnft mp hm, hsym mp hm]
    constructor
    · rintro ⟨_, h2, h3⟩; exact ⟨h2, h3⟩
    · rintro ⟨h2, h3⟩; exact ⟨hT, h2, h3⟩

/-- First mark-price event of the spec's S5 scenario. -/
def c2mp1 : MarkPrice :=
  { event_time_ms := 1000, symbol := "S", mark_price := 100,
    funding_rate := 1/100, next_funding_time_ms := 1000 }

/-- Second mark-price event of the spec's S5 scenario (same funding time). -/
def c2mp2 : MarkPrice :=
  { event_time_ms := 1001, symbol := "S", mark_price := 101,
    funding_rate := 2/100, next_funding_time_ms := 1000 }

/-- S5 starting context: short 1 unit at 100, no funding applied yet. -/
def c2ctx : FundingCtx := { portfolio := Portfolio.empty.apply_fill "S" .sell 1 100 0 }

/-- C2 witness: the funding-gating theorem instantiated at the spec's S5
scenario (two mark-price events sharing `next_funding_time_ms = 1000`). -/
theorem claim2_funding_applied_once_witness :
    (0:ℤ) < 1000 ∧
    (∀ mp ∈ [c2mp1, c2mp2], mp.next_funding_time_ms = 1000) ∧
    (∀ mp ∈ [c2mp1, c2mp2], mp.symbol = "S") ∧
    (appliedCount c2ctx [c2mp1, c2mp2] ≤ 1 ∧
     (∀ mp ∈ [c2mp1, c2mp2], fundingApplies c2ctx mp ↔
         ((1000:ℤ) ≤ mp.event_time_ms ∧ c2ctx.last_funding_applied_ms "S" < 1000)) ∧
     (∀ mp, fundingApplies c2ctx mp →
         (applyFundingIfDue c2ctx mp).1.last_funding_applied_ms mp.symbol
             = mp.next_funding_time_ms ∧
         (applyFundingIfDue c2ctx mp).2
             = -((c2ctx.portfolio.positions mp.symbol).qty * mp.mark_price) * mp.funding_rate ∧
         (applyFundingIfDue c2ctx mp).1.portfolio.realized_pnl_usdt
             = c2ctx.portfolio.realized_pnl_usdt + (applyFundingIfDue c2ctx mp).2) ∧
     (∀ mp, ¬ fundingApplies c2ctx mp → applyFundingIfDue c2ctx mp = (c2ctx, 0)) ∧
     ((1000:ℤ) ≤ c2ctx.last_funding_applied_ms "S" →
         processMarks c2ctx [c2mp1, c2mp2] = c2ctx)) :=
  ⟨by decide,
   by intro mp hm; fin_cases hm <;> rfl,
   by intro mp hm; fin_cases hm <;> rfl,
   claim2_funding_applied_once c2ctx "S" 1000 [c2mp1, c2mp2] (by decide)
     (by intro mp hm; fin_cases hm <;> rfl)
     (by intro mp hm; fin_cases hm <;> rfl)⟩

/-! ## L2 order book (`btengine/marketdata/orderbook.py`)

The Python `dict[float, float]` price maps are modelled as association lists
with unique price keys.  The lazy bid/ask heaps are an optimisation of
best-of-side lookup; every insertion pushes its price, and lookups skip
entries that are absent or non-positive in the dict, so the observable
behaviour is "extremal key with positive quantity", which is what the model
computes directly. -/

/-- First-match association list lookup (`dict[k]` / `dict.get(k)`). -/
def alGet {α β : Type} [DecidableEq α] : List (α × β) → α → Option β
  | [], _ => none
  | (p, q) :: rest, x => if p = x then some q else alGet rest x

/-- `dict.get(k, d)`. -/
def alGetD {α β : Type} [DecidableEq α] (m : List (α × β)) (x : α) (d : β) : β :=
  (alGet m x).getD d

/-- `dict[k] = v` on a unique-key association list. -/
def alSet {α β : Type} [DecidableEq α] : List (α × β) → α → β → List (α × β)
  | [], p, q => [(p, q)]
  | (p', q') :: rest, p, q =>
      if p' = p then (p, q) :: rest else (p', q') :: alSet rest p q

/-- `dict.pop(k, None)` on a unique-key association list. -/
def alErase {α β : Type} [DecidableEq α] : List (α × β) → α → List (α × β)
  | [], _ => []
  | (p', q') :: rest, p => if p' = p then rest else (p', q') :: alErase rest p

/-- `L2Book`: the two price→quantity maps. -/
structure L2Book where
  bids : List (ℚ × ℚ) := []
  asks : List (ℚ × ℚ) := []
deriving DecidableEq, Repr

/-- Highest key with positive quantity (observable behaviour of `best_bid`'s
lazy-heap loop). -/
def maxPosKey : List (ℚ × ℚ) → Option ℚ
  | [] => none
  | (p, q) :: rest =>
      let r := maxPosKey rest
      if 0 < q then
        some (match r with
          | none => p
          | some m => if m < p then p else m)
      else r

/-- Lowest key with positive quantity (observable behaviour of `best_ask`). -/
def minPosKey : List (ℚ × ℚ) → Option ℚ
  | [] => none
  | (p, q) :: rest =>
      let r := minPosKey rest
      if 0 < q then
        some (match r with
          | none => p
          | some m => if p < m then p else m)
      else r

/-- `L2Book.best_bid()`. -/
def L2Book.best_bid (b : L2Book) : Option ℚ := maxPosKey b.bids

/-- `L2Book.best_ask()`. -/
def L2Book.best_ask (b : L2Book) : Option ℚ := minPosKey b.asks

/-- `L2Book.mid_price()`: `None` when either side has no best price, else the
arithmetic mean.  The source does not guard against non-positive best
prices. -/
def L2Book.mid_price (b : L2Book) : Option ℚ :=
  match b.best_bid, b.best_ask with
  | some bid, some ask => some ((bid + ask) / 2)
  | _, _ => none

/-- C8 (amended): `mid_price` returns `None` exactly when one of the sides has
no best price (side empty of positive-quantity levels), and otherwise returns
the arithmetic mean `(best_bid + best_ask) / 2`; there is no guard against
non-positive best prices. -/
theorem claim8_mid_price (b : L2Book) :
    (b.mid_price = none ↔ (b.best_bid = none ∨ b.best_ask = none)) ∧
    (∀ bid ask : ℚ, b.best_bid = some bid → b.best_ask = some ask →
      b.mid_price = some ((bid + ask) / 2)) := by
  constructor
  · unfold L2Book.mid_price
    cases b.best_bid <;> cases b.best_ask <;> simp
  · intro bid ask hb ha
    unfold L2Book.mid_price
    rw [hb, ha]

/-- C8 witness: the amended theorem applied to the concrete book
`bids = [(99, 1)]`, `asks = [(101, 1)]`, whose mid price is `100`. -/
theorem claim8_mid_price_witness :
    (L2Book.mk [(99, 1)] [(101, 1)]).best_bid = some 99 ∧
    (L2Book.mk [(99, 1)] [(101, 1)]).best_ask = some 101 ∧
    (L2Book.mk [(99, 1)] [(101, 1)]).mid_price = some ((99 + 101) / 2) :=
  ⟨by with_unfolding_all decide, by with_unfolding_all decide,
   (claim8_mid_price (L2Book.mk [(99, 1)] [(101, 1)])).2 99 101
     (by with_unfolding_all decide) (by with_unfolding_all decide)⟩

/-- C8 counterexample: on the book `bids = [(-1, 1)]`, `asks = [(1, 1)]` the
best bid is `-1 ≤ 0`, yet `mid_price` returns `some 0` rather than the `None`
the claim requires for a non-positive best price. -/
theorem claim8_counterexample :
    (L2Book.mk [(-1, 1)] [(1, 1)]).best_bid = some (-1) ∧
    ((-1 : ℚ) ≤ 0) ∧
    (L2Book.mk [(-1, 1)] [(1, 1)]).mid_price ≠ none := by
  refine ⟨by with_unfolding_all decide, by norm_num, ?_⟩
  with_unfolding_all decide

/-! ## Taker matcher (`btengine/execution/taker.py`) -/

/-- Insert a level into a list ascending by price (step of the stable sort
`sorted(items, key=lambda x: x[0])`). -/
def insertAsc (x : ℚ × ℚ) : List (ℚ × ℚ) → List (ℚ × ℚ)
  | [] => [x]
  | y :: ys => if x.1 ≤ y.1 then x :: y :: ys else y :: insertAsc x ys

/-- `sorted(items, key=lambda x: x[0])`. -/
def sortAsc (l : List (ℚ × ℚ)) : List (ℚ × ℚ) := l.foldr insertAsc []

/-- Insert a level into a list descending by price. -/
def insertDesc (x : ℚ × ℚ) : List (ℚ × ℚ) → List (ℚ × ℚ)
  | [] => [x]
  | y :: ys => if y.1 ≤ x.1 then x :: y :: ys else y :: insertDesc x ys

/-- `sorted(items, key=lambda x: x[0], reverse=True)`. -/
def sortDesc (l : List (ℚ × ℚ)) : List (ℚ × ℚ) := l.foldr insertDesc []

theorem insertAsc_perm (x : ℚ × ℚ) (l : List (ℚ × ℚ)) : List.Perm (insertAsc x l) (x :: l) := by
  induction l with
  | nil => rfl
  | cons y ys ih =>
      unfold insertAsc
      split
      · rfl
      · exact ((ih.cons y).trans (List.Perm.swap x y ys))

theorem sortAsc_perm (l : List (ℚ × ℚ)) : List.Perm (sortAsc l) l := by
  induction l with
  | nil => rfl
  | cons y ys ih => exact (insertAsc_perm y (sortAsc ys)).trans (ih.cons y)

theorem insertDesc_perm (x : ℚ × ℚ) (l : List (ℚ × ℚ)) : List.Perm (insertDesc x l) (x :: l) := by
  induction l with
  | nil => rfl
  | cons y ys ih =>
      unfold insertDesc
      split
      · rfl
      · exact ((ih.cons y).trans (List.Perm.swap x y ys))

theorem sortDesc_perm (l : List (ℚ × ℚ)) : List.Perm (sortDesc l) l := by
  induction l with
  | nil => rfl
  | cons y ys ih => exact (insertDesc_perm y (sortDesc ys)).trans (ih.cons y)

/-- The `crosses(p)` closure of `simulate_taker_fill` / `consume_taker_fill`:
a buy must not pay above its limit, a sell must not hit below it. -/
def takerCrosses (side : Side) (limit : Option ℚ) (p : ℚ) : Bool :=
  match limit with
  | none => false
  | some lp =>
      match side with
      | .buy => decide (lp < p)
      | .sell => decide (p < lp)

/-- The level walk shared by both taker functions (`for price, lvl_qty in
levels: ...`), accumulating `(filled, cost)`. -/
def takerWalkSim : List (ℚ × ℚ) → (ℚ → Bool) → ℚ → ℚ → ℚ → ℚ × ℚ
  | [], _, _, filled, cost => (filled, cost)
  | (price, lvl_qty) :: rest, crosses, remaining, filled, cost =>
      if remaining ≤ 0 then (filled, cost)
      else if lvl_qty ≤ 0 then takerWalkSim rest crosses remaining filled cost
      else if crosses price then (filled, cost)
      else
        let take := if lvl_qty ≤ remaining then lvl_qty else remaining
        takerWalkSim rest crosses (remaining - take) (filled + take) (cost + take * price)

/-- The same walk, additionally applying the self-impact writes of
`consume_taker_fill` to the side map: each consumed level is decremented by
its take and dropped when the residual is at most `eps_qty = 1e-12`. -/
def takerWalkConsume :
    List (ℚ × ℚ) → (ℚ → Bool) → ℚ → ℚ → ℚ → List (ℚ × ℚ) → ℚ × ℚ × List (ℚ × ℚ)
  | [], _, _, filled, cost, m => (filled, cost, m)
  | (price, lvl_qty) :: rest, crosses, remaining, filled, cost, m =>
      if remaining ≤ 0 then (filled, cost, m)
      else if lvl_qty ≤ 0 then takerWalkConsume rest crosses remaining filled cost m
      else if crosses price then (filled, cost, m)
      else
        let take := if lvl_qty ≤ remaining then lvl_qty else remaining
        let new_qty := lvl_qty - take
        let m' := if new_qty ≤ dustEps then alErase m price else alSet m price new_qty
        takerWalkConsume rest crosses (remaining - take) (filled + take) (cost + take * price) m'

/-- The `(price, new_qty)` writes that the consuming walk performs, read off
the same loop. -/
def takerLevelUpdates : List (ℚ × ℚ) → (ℚ → Bool) → ℚ → List (ℚ × ℚ)
  | [], _, _ => []
  | (price, lvl_qty) :: rest, crosses, remaining =>
      if remaining ≤ 0 then []
      else if lvl_qty ≤ 0 then takerLevelUpdates rest crosses remaining
      else if crosses price then []
      else
        let take := if lvl_qty ≤ remaining then lvl_qty else remaining
        (price, lvl_qty - take) :: takerLevelUpdates rest crosses (remaining - take)

/-- Apply a list of `(price, new_qty)` writes to a side map: a residual at
most `1e-12` removes the level, otherwise the level is reassigned. -/
def applyLevelUpdates (m : List (ℚ × ℚ)) : List (ℚ × ℚ) → List (ℚ × ℚ)
  | [] => m
  | (p, nq) :: rest =>
      applyLevelUpdates (if nq ≤ dustEps then alErase m p else alSet m p nq) rest

/-- The consuming walk returns the plain walk's accumulators unchanged and
performs exactly the write sequence `takerLevelUpdates`. -/
theorem takerWalkConsume_spec (levels : List (ℚ × ℚ)) (crosses : ℚ → Bool) :
    ∀ (remaining filled cost : ℚ) (m : List (ℚ × ℚ)),
    takerWalkConsume levels crosses remaining filled cost m
      = ((takerWalkSim levels crosses remaining filled cost).1,
         (takerWalkSim levels crosses remaining filled cost).2,
         applyLevelUpdates m (takerLevelUpdates levels crosses remaining)) := by
  induction levels with
  | nil => intro remaining filled cost m; rfl
  | cons level rest ih =>
      intro remaining filled cost m
      obtain ⟨price, lvl_qty⟩ := level
      unfold takerWalkConsume takerWalkSim takerLevelUpdates
      by_cases h1 : remaining ≤ 0
      · simp only [if_pos h1, applyLevelUpdates]
      · simp only [if_neg h1]
        by_cases h2 : lvl_qty ≤ 0
        · simp only [if_pos h2]; exact ih remaining filled cost m
        · simp only [if_neg h2]
          by_cases h3 : crosses price
          · simp only [if_pos h3, applyLevelUpdates]
          · simp only [if_neg h3, applyLevelUpdates]
            exact ih _ _ _ _

/-- `simulate_taker_fill(book, side, quantity, limit_price)`.  The outer
`Option` is the `ValueError` on `quantity ≤ 0`; the inner `Option ℚ` is the
NaN average price of a zero fill. -/
def simulate_taker_fill (book : L2Book) (side : Side) (quantity : ℚ)
    (limit_price : Option ℚ) : Option (Option ℚ × ℚ) :=
  if quantity ≤ 0 then none
  else
    let levels := match side with
      | .buy => sortAsc book.asks
      | .sell => sortDesc book.bids
    let res := takerWalkSim levels (takerCrosses side limit_price) quantity 0 0
    if res.1 ≤ 0 then some (none, 0)
    else some (some (res.2 / res.1), res.1)

/-- `consume_taker_fill(book, side, quantity, limit_price)`: identical walk,
but the updated book is returned as well (the Python version mutates the book
in place). -/
def consume_taker_fill (book : L2Book) (side : Side) (quantity : ℚ)
    (limit_price : Option ℚ) : Option (Option ℚ × ℚ × L2Book) :=
  if quantity ≤ 0 then none
  else
    match side with
    | .buy =>
        let res := takerWalkConsume (sortAsc book.asks) (takerCrosses .buy limit_price)
          quantity 0 0 book.asks
        if res.1 ≤ 0 then some (none, 0, { book with asks := res.2.2 })
        else some (some (res.2.1 / res.1), res.1, { book with asks := res.2.2 })
    | .sell =>
        let res := takerWalkConsume (sortDesc book.bids) (takerCrosses .sell limit_price)
          quantity 0 0 book.bids
        if res.1 ≤ 0 then some (none, 0, { book with bids := res.2.2 })
        else some (some (res.2.1 / res.1), res.1, { book with bids := res.2.2 })

/-- C10: for every book, side, positive quantity and optional limit price,
`consume_taker_fill` succeeds and returns exactly the `(avg_price,
filled_qty)` pair of `simulate_taker_fill` on the same pre-call book; the two
differ only in the book: the walked opposite side receives the per-level
decrements (a level is removed when its residual is at most `1e-12`) and the
same side of the book is untouched. -/
theorem claim10_consume_refines_simulate (book : L2Book) (side : Side)
    (qty : ℚ) (limit : Option ℚ) (h : 0 < qty) :
    ∃ (avg : Option ℚ) (filled : ℚ) (book' : L2Book),
      consume_taker_fill book side qty limit = some (avg, filled, book') ∧
      simulate_taker_fill book side qty limit = some (avg, filled) ∧
      (match side with
        | .buy => book'.bids = book.bids ∧
            book'.asks = applyLevelUpdates book.asks
              (takerLevelUpdates (sortAsc book.asks) (takerCrosses .buy limit) qty)
        | .sell => book'.asks = book.asks ∧
            book'.bids = applyLevelUpdates book.bids
              (takerLevelUpdates (sortDesc book.bids) (takerCrosses .sell limit) qty)) := by
  have hq : ¬ qty ≤ 0 := not_le.mpr h
  cases side
  · simp only [consume_taker_fill, simulate_taker_fill, takerWalkConsume_spec, if_neg hq]
    by_cases hz : (takerWalkSim (sortAsc book.asks) (takerCrosses .buy limit) qty 0 0).1 ≤ 0
    · rw [if_pos hz, if_pos hz]
      exact ⟨none, 0, _, rfl, rfl, rfl, rfl⟩
    · rw [if_neg hz, if_neg hz]
      exact ⟨_, _, _, rfl, rfl, rfl, rfl⟩
  · simp only [consume_taker_fill, simulate_taker_fill, takerWalkConsume_spec, if_neg hq]
    by_cases hz : (takerWalkSim (sortDesc book.bids) (takerCrosses .sell limit) qty 0 0).1 ≤ 0
    · rw [if_pos hz, if_pos hz]
      exact ⟨none, 0, _, rfl, rfl, rfl, rfl⟩
    · rw [if_neg hz, if_neg hz]
      exact ⟨_, _, _, rfl, rfl, rfl, rfl⟩

/-- C10 witness: the refinement theorem applied to a concrete buy of `3/2`
against the book `bids = [(99, 1)]`, `asks = [(100, 2)]`. -/
theorem claim10_consume_refines_simulate_witness :
    (0 : ℚ) < 3/2 ∧
    (∃ (avg : Option ℚ) (filled : ℚ) (book' : L2Book),
      consume_taker_fill (L2Book.mk [(99, 1)] [(100, 2)]) .buy (3/2) none
        = some (avg, filled, book') ∧
      simulate_taker_fill (L2Book.mk [(99, 1)] [(100, 2)]) .buy (3/2) none
        = some (avg, filled) ∧
      (book'.bids = (L2Book.mk [(99, 1)] [(100, 2)]).bids ∧
        book'.asks = applyLevelUpdates (L2Book.mk [(99, 1)] [(100, 2)]).asks
          (takerLevelUpdates (sortAsc (L2Book.mk [(99, 1)] [(100, 2)]).asks)
            (takerCrosses .buy none) (3/2)))) :=
  ⟨by norm_num,
   claim10_consume_refines_simulate (L2Book.mk [(99, 1)] [(100, 2)]) .buy (3/2) none
     (by norm_num)⟩

/-! ## Maker queue model (`btengine/execution/queue_model.py`) -/

/-- `Trade` event from `btengine/types.py`. -/
structure Trade where
  received_time_ns : ℤ := 0
  event_time_ms : ℤ := 0
  trade_time_ms : ℤ := 0
  symbol : String
  trade_id : ℤ := 0
  price : ℚ
  quantity : ℚ
  is_buyer_maker : Bool

/-- `MakerQueueOrder` dataclass. -/
structure MakerQueueOrder where
  symbol : String
  side : Side
  price : ℚ
  quantity : ℚ
  queue_ahead_qty : ℚ
  filled_qty : ℚ := 0
  trade_participation : ℚ := 1
deriving DecidableEq, Repr

/-- `MakerQueueOrder.remaining_qty()`. -/
def MakerQueueOrder.remaining_qty (o : MakerQueueOrder) : ℚ :=
  let rem := o.quantity - o.filled_qty
  if 0 < rem then rem else 0

/-- `MakerQueueOrder.is_filled()`. -/
def MakerQueueOrder.is_filled (o : MakerQueueOrder) : Bool :=
  decide (o.remaining_qty ≤ 0)

/-- `MakerQueueOrder.on_book_qty_update(new_visible_qty)`:
`none` models the `ValueError` on a negative quantity; only decreases of the
visible quantity are taken (increases are assumed to queue behind us). -/
def MakerQueueOrder.on_book_qty_update (o : MakerQueueOrder) (v : ℚ) :
    Option MakerQueueOrder :=
  if v < 0 then none
  else if v < o.queue_ahead_qty then some { o with queue_ahead_qty := v }
  else some o

/-- `MakerQueueOrder.on_trade(trade)`, translated guard by guard; returns the
updated order and the filled quantity, or `none` for the `ValueError` on an
out-of-range `trade_participation`. -/
def MakerQueueOrder.on_trade (o : MakerQueueOrder) (t : Trade) :
    Option (MakerQueueOrder × ℚ) :=
  if t.symbol ≠ o.symbol then some (o, 0)
  else if o.is_filled then some (o, 0)
  -- math.isclose(trade.price, self.price, rel_tol=0.0, abs_tol=1e-9)
  else if ¬ (rabs (t.price - o.price) ≤ priceEps) then some (o, 0)
  else if (match o.side with
           | .buy => !t.is_buyer_maker  -- buy aggressor doesn't fill our bid
           | .sell => t.is_buyer_maker) then some (o, 0)
  else if ¬ (0 < o.trade_participation ∧ o.trade_participation ≤ 1) then none
  else
    let v := t.quantity * o.trade_participation
    if v ≤ 0 then some (o, 0)
    -- First consume the queue ahead.
    else if v ≤ o.queue_ahead_qty then
      some ({ o with queue_ahead_qty := o.queue_ahead_qty - v }, 0)
    else
      -- The excess trades can fill us.
      let remaining_after_queue := v - o.queue_ahead_qty
      let fill := if o.remaining_qty ≤ remaining_after_queue
        then o.remaining_qty else remaining_after_queue
      some ({ o with queue_ahead_qty := 0, filled_qty := o.filled_qty + fill }, fill)

/-- The applicability condition of C5: same symbol, price within the absolute
tolerance `1e-9`, and the trade's aggressor side matching the passive side of
the resting order. -/
def tradeMatches (o : MakerQueueOrder) (t : Trade) : Prop :=
  t.symbol = o.symbol ∧ rabs (t.price - o.price) ≤ priceEps ∧
    (o.side = .buy → t.is_buyer_maker = true) ∧
    (o.side = .sell → t.is_buyer_maker = false)

/-- C5: a trade that does not match symbol, price level (within `1e-9`) and
passive side leaves a resting order untouched and fills `0`; a matching trade
on a non-terminal order with valid participation first consumes the queue
ahead by `v = quantity × trade_participation` and only the excess fills the
order, capped by the remaining quantity so that `filled_qty` never exceeds
`quantity`; a matching trade on a terminal order changes nothing. -/
theorem claim5_on_trade (o : MakerQueueOrder) (t : Trade) :
    (¬ tradeMatches o t → o.on_trade t = some (o, 0)) ∧
    (tradeMatches o t → o.is_filled = false → 0 < o.trade_participation →
      o.trade_participation ≤ 1 → 0 < t.quantity →
      ((t.quantity * o.trade_participation ≤ o.queue_ahead_qty →
          o.on_trade t = some
            ({ o with queue_ahead_qty :=
                o.queue_ahead_qty - t.quantity * o.trade_participation }, 0)) ∧
       (o.queue_ahead_qty < t.quantity * o.trade_participation →
          ∃ fill : ℚ,
            fill = (if o.remaining_qty ≤ t.quantity * o.trade_participation - o.queue_ahead_qty
              then o.remaining_qty
              else t.quantity * o.trade_participation - o.queue_ahead_qty) ∧
            o.on_trade t = some
              ({ o with queue_ahead_qty := 0, filled_qty := o.filled_qty + fill }, fill) ∧
            o.filled_qty + fill ≤ o.quantity))) ∧
    (tradeMatches o t → o.is_filled = true → o.on_trade t = some (o, 0)) := by
  refine ⟨?_, ?_, ?_⟩
  · intro hnm
    unfold tradeMatches at hnm
    unfold MakerQueueOrder.on_trade
    by_cases h1 : t.symbol = o.symbol
    · rw [if_neg (by simpa using h1)]
      by_cases hf : o.is_filled
      · rw [if_pos hf]
      · rw [if_neg hf]
        by_cases h2 : rabs (t.price - o.price) ≤ priceEps
        · rw [if_neg (by simpa using h2)]
          rw [if_pos ?side]
          case side =>
            cases hs : o.side with
            | buy =>
                cases hb : t.is_buyer_maker with
                | false => simp [hs, hb]
                | true =>
                    exact absurd ⟨h1, h2, fun _ => hb,
                      fun hcon => by simp [hs] at hcon⟩ hnm
            | sell =>
                cases hb : t.is_buyer_maker with
                | false =>
                    exact absurd ⟨h1, h2, fun hcon => by simp [hs] at hcon,
                      fun _ => hb⟩ hnm
                | true => simp [hs, hb]
        · rw [if_pos (by simpa using h2)]
    · rw [if_pos (by simpa using h1)]
  · intro hm hnf htp0 htp1 htq
    obtain ⟨h1, h2, h3, h4⟩ := hm
    have hv : 0 < t.quantity * o.trade_participation := mul_pos htq htp0
    unfold MakerQueueOrder.on_trade
    rw [if_neg (by simpa using h1), if_neg (by simp [hnf]),
        if_neg (by simpa using h2)]
    rw [if_neg (show ¬ _ by
      cases hs : o.side
      · simp [hs, h3 hs]
      · simp [hs, h4 hs])]
    rw [if_neg (by push_neg; exact ⟨htp0, htp1⟩), if_neg (not_le.mpr hv)]
    constructor
    · intro hq
      rw [if_pos hq]
    · intro hq
      rw [if_neg (not_le.mpr hq)]
      refine ⟨_, rfl, rfl, ?_⟩
      have hrem : o.remaining_qty = o.quantity - o.filled_qty := by
        unfold MakerQueueOrder.is_filled at hnf
        unfold MakerQueueOrder.remaining_qty
        rw [if_pos]
        have := of_decide_eq_false hnf
        unfold MakerQueueOrder.remaining_qty at this
        by_contra hc
        push_neg at hc
        rw [if_neg (not_lt.mpr hc)] at this
        exact this le_rfl
      by_cases hcap : o.remaining_qty ≤ t.quantity * o.trade_participation - o.queue_ahead_qty
      · rw [if_pos hcap, hrem]; linarith
      · rw [if_neg hcap]
        push_neg at hcap
        rw [hrem] at hcap
        linarith
  · intro _ hf
    unfold MakerQueueOrder.on_trade
    by_cases h1 : t.symbol = o.symbol
    · rw [if_neg (by simpa using h1), if_pos hf]
    · rw [if_pos (by simpa using h1)]

/-- Concrete resting bid for the C5 witness: buy 1.0 @ 100 with `0.5` ahead. -/
def c5o : MakerQueueOrder :=
  { symbol := "S", side := .buy, price := 100, quantity := 1,
    queue_ahead_qty := 1/2, filled_qty := 0, trade_participation := 1 }

/-- Concrete matching trade for the C5 witness: sell aggressor `0.4 @ 100`. -/
def c5t : Trade := { symbol := "S", price := 100, quantity := 2/5, is_buyer_maker := true }

/-- C5 witness: the on-trade theorem applied to the concrete resting bid and
matching trade; the trade volume only chips away at the queue ahead. -/
theorem claim5_on_trade_witness :
    tradeMatches c5o c5t ∧ c5o.is_filled = false ∧
    (0:ℚ) < c5o.trade_participation ∧ c5o.trade_participation ≤ 1 ∧
    (0:ℚ) < c5t.quantity ∧
    c5t.quantity * c5o.trade_participation ≤ c5o.queue_ahead_qty ∧
    c5o.on_trade c5t = some
      ({ c5o with queue_ahead_qty :=
          c5o.queue_ahead_qty - c5t.quantity * c5o.trade_participation }, 0) := by
  have hm : tradeMatches c5o c5t := by
    refine ⟨rfl, by norm_num [c5o, c5t, rabs, priceEps], fun _ => rfl, fun h => ?_⟩
    rw [show c5o.side = Side.buy from rfl] at h
    cases h
  have hnf : c5o.is_filled = false := by with_unfolding_all decide
  have htp0 : (0:ℚ) < c5o.trade_participation := by norm_num [c5o]
  have htp1 : c5o.trade_participation ≤ 1 := by norm_num [c5o]
  have htq : (0:ℚ) < c5t.quantity := by norm_num [c5t]
  have hq : c5t.quantity * c5o.trade_participation ≤ c5o.queue_ahead_qty := by
    norm_num [c5o, c5t]
  exact ⟨hm, hnf, htp0, htp1, htq, hq,
    ((claim5_on_trade c5o c5t).2.1 hm hnf htp0 htp1 htq).1 hq⟩

/-! ## Simulated broker (`btengine/broker.py`)

The pending-submit heap entries of the source hold a *reference* to the live
book; the model stores the book by value inside each entry (the claims proved
below do not depend on cross-entry aliasing).  `on_time` likewise drops the
book returned by routing a pending submit, because in the source the book is
owned by the engine context, not by the broker. -/

/-- `OrderType` (`"market" | "limit"`). -/
inductive OrderType where
  | market
  | limit
deriving DecidableEq, Repr

/-- `TimeInForce` (`"GTC" | "IOC"`). -/
inductive TimeInForce where
  | GTC
  | IOC
deriving DecidableEq, Repr

/-- `Order` dataclass from `btengine/execution/orders.py`. -/
structure Order where
  id : String
  symbol : String
  side : Side
  order_type : OrderType
  quantity : ℚ
  price : Option ℚ := none
  time_in_force : TimeInForce := .GTC
  post_only : Bool := false
  created_time_ms : ℤ := 0
deriving DecidableEq, Repr

/-- `"maker" | "taker"`. -/
inductive Liquidity where
  | maker
  | taker
deriving DecidableEq, Repr

/-- `Fill` dataclass. -/
structure Fill where
  order_id : String
  symbol : String
  side : Side
  quantity : ℚ
  price : ℚ
  fee_usdt : ℚ
  event_time_ms : ℤ
  liquidity : Liquidity
deriving DecidableEq, Repr

/-- `SimBroker` dataclass: configuration knobs and mutable state.  The
`_canceled` set is a duplicate-free list; `_maker_orders` is an association
list keyed by order id; the two pending heaps are lists kept sorted by
`(due_ms, seq)`. -/
structure SimBroker where
  maker_fee_frac : ℚ := 4 / 10 ^ 4
  taker_fee_frac : ℚ := 5 / 10 ^ 4
  submit_latency_ms : ℤ := 0
  cancel_latency_ms : ℤ := 0
  maker_queue_ahead_factor : ℚ := 1
  maker_queue_ahead_extra_qty : ℚ := 0
  maker_trade_participation : ℚ := 1
  portfolio : Portfolio := {}
  fills : List Fill := []
  maker_orders : List (String × MakerQueueOrder) := []
  pending_submits : List (ℤ × ℤ × Order × L2Book) := []
  pending_cancels : List (ℤ × ℤ × String) := []
  seq : ℤ := 0
  canceled : List String := []

/-- The dataclass-generated `SimBroker(...)` constructor: plain field
assignment, no `__post_init__`, hence no validation of any kind. -/
def SimBroker.construct (maker_fee taker_fee : ℚ) (submit_lat cancel_lat : ℤ)
    (factor extra tp : ℚ) : SimBroker :=
  { maker_fee_frac := maker_fee, taker_fee_frac := taker_fee,
    submit_latency_ms := submit_lat, cancel_latency_ms := cancel_lat,
    maker_queue_ahead_factor := factor, maker_queue_ahead_extra_qty := extra,
    maker_trade_participation := tp }

/-- `SimBroker._cancel_now(order_id)`: drop the resting order and flag the id
so that a still-pending submit is suppressed. -/
def cancelNow (b : SimBroker) (order_id : String) : SimBroker :=
  { b with maker_orders := alErase b.maker_orders order_id,
           canceled := if order_id ∈ b.canceled then b.canceled else order_id :: b.canceled }

/-- `SimBroker._open_maker(order, book)`: queue-ahead from the visible
same-side quantity at the order's price, scaled and offset by the
(validated-here) queue parameters. -/
def openMaker (b : SimBroker) (o : Order) (book : L2Book) : Except String SimBroker :=
  match o.price with
  | none => .error "limit order requires price"
  | some px =>
      let q_ahead0 : ℚ := match o.side with
        | .buy => alGetD book.bids px 0
        | .sell => alGetD book.asks px 0
      if b.maker_queue_ahead_factor < 0 then
        .error "maker_queue_ahead_factor must be >= 0"
      else if b.maker_queue_ahead_extra_qty < 0 then
        .error "maker_queue_ahead_extra_qty must be >= 0"
      else
        .ok { b with maker_orders := (alSet b.maker_orders o.id
          { symbol := o.symbol, side := o.side, price := px, quantity := o.quantity,
            queue_ahead_qty :=
              q_ahead0 * b.maker_queue_ahead_factor + b.maker_queue_ahead_extra_qty,
            filled_qty := 0, trade_participation := b.maker_trade_participation }) }

/-- `SimBroker._fill_taker(order, book, now_ms, limit_price)`: consume the
book, then book the fee, the portfolio fill and the `Fill` record when the
match is non-empty. -/
def fillTaker (b : SimBroker) (o : Order) (book : L2Book) (now : ℤ)
    (limit_price : Option ℚ) : Except String ((Option ℚ × ℚ) × SimBroker × L2Book) :=
  match consume_taker_fill book o.side o.quantity limit_price with
  | none => .error "quantity must be > 0"
  | some (avg, filled, book') =>
      match avg with
      | none => .ok ((none, 0), b, book')
      | some px =>
          if filled ≤ 0 then .ok ((some px, 0), b, book')
          else
            let fee := filled * px * b.taker_fee_frac
            let fl : Fill :=
              { order_id := o.id, symbol := o.symbol, side := o.side,
                quantity := filled, price := px, fee_usdt := fee,
                event_time_ms := now, liquidity := .taker }
            .ok ((some px, filled),
              { b with
                portfolio := b.portfolio.apply_fill o.symbol o.side filled px fee,
                fills := b.fills ++ [fl] },
              book')

/-- The `crosses()` closure of `_submit_now`: a buy crosses iff it reaches the
ask, a sell iff it reaches the bid. -/
def limitCrosses (side : Side) (limit_px : ℚ) (book : L2Book) : Bool :=
  match side with
  | .buy =>
      match book.best_ask with
      | none => false
      | some a => decide (a ≤ limit_px)
  | .sell =>
      match book.best_bid with
      | none => false
      | some bd => decide (limit_px ≤ bd)

/-- `SimBroker._submit_now(order, book, now_ms)`, translated branch by branch.
Returns the updated broker and book. -/
def submitNow (b : SimBroker) (o : Order) (book : L2Book) (now : ℤ) :
    Except String (SimBroker × L2Book) :=
  match o.order_type with
  | .market => (fillTaker b o book now none).map (fun r => (r.2.1, r.2.2))
  | .limit =>
      match o.price with
      | none => .error "limit order requires price"
      | some limit_px =>
          if o.post_only then
            -- Post-only orders that would execute immediately should be rejected.
            if limitCrosses o.side limit_px book then .ok (b, book)
            else (openMaker b o book).map (fun b' => (b', book))
          else if o.time_in_force = .IOC then
            -- Non-post-only limit: IOC acts as taker up to the limit.
            (fillTaker b o book now (some limit_px)).map (fun r => (r.2.1, r.2.2))
          else if limitCrosses o.side limit_px book then
            -- GTC limit crossing the spread executes immediately...
            match fillTaker b o book now (some limit_px) with
            | .error e => .error e
            | .ok ((_, filled_qty), b1, book1) =>
                let remaining := o.quantity - filled_qty
                if 0 < remaining then
                  -- ...and the unfilled portion remains on the book.
                  (openMaker b1
                    { id := o.id, symbol := o.symbol, side := o.side,
                      order_type := .limit, quantity := remaining,
                      price := some limit_px, time_in_force := .GTC,
                      post_only := false, created_time_ms := o.created_time_ms }
                    book1).map (fun b2 => (b2, book1))
                else .ok (b1, book1)
          else (openMaker b o book).map (fun b' => (b', book))

/-- `SimBroker.submit(order, book, now_ms)`: queue when a positive submit
latency is configured, else route immediately. -/
def SimBroker.submit (b : SimBroker) (o : Order) (book : L2Book) (now : ℤ) :
    Except String (SimBroker × L2Book) :=
  if 0 < b.submit_latency_ms then
    .ok ({ b with
           seq := b.seq + 1,
           pending_submits := b.pending_submits ++
             [(now + b.submit_latency_ms, b.seq + 1, o, book)] }, book)
  else submitNow b o book now

/-- The due-submit drain of `on_time`: pop each due entry in heap order,
discarding entries whose id was flagged canceled (consuming the flag). -/
def submitsLoop (b : SimBroker) (now : ℤ) :
    List (ℤ × ℤ × Order × L2Book) → Except String SimBroker
  | [] => .ok b
  | (_, _, o, book) :: rest =>
      if o.id ∈ b.canceled then
        submitsLoop { b with canceled := b.canceled.erase o.id } now rest
      else
        match submitNow b o book now with
        | .error e => .error e
        | .ok (b', _) => submitsLoop b' now rest

/-- `SimBroker.on_time(now_ms)`: drain due cancels first, then due submits
(a cancel and a submit due at the same instant are resolved cancel-first). -/
def onTime (b : SimBroker) (now : ℤ) : Except String SimBroker :=
  let due_c := b.pending_cancels.takeWhile (fun e => decide (e.1 ≤ now))
  let rest_c := b.pending_cancels.dropWhile (fun e => decide (e.1 ≤ now))
  let b1 := due_c.foldl (fun acc e => cancelNow acc e.2.2)
    { b with pending_cancels := rest_c }
  let due_s := b1.pending_submits.takeWhile (fun e => decide (e.1 ≤ now))
  let rest_s := b1.pending_submits.dropWhile (fun e => decide (e.1 ≤ now))
  submitsLoop { b1 with pending_submits := rest_s } now due_s

/-- C4: a post-only limit that crosses (buy: best ask exists and is at most
the limit; sell: best bid exists and is at least the limit) is a silent
no-op: the broker and the book are returned unchanged, so no fill is
recorded, no maker order rests, and the portfolio is untouched.  A post-only
limit that does not cross opens as a resting maker order under valid queue
parameters. -/
theorem claim4_post_only_reject (b : SimBroker) (o : Order) (book : L2Book)
    (now : ℤ) (px : ℚ) (htype : o.order_type = .limit) (hpx : o.price = some px)
    (hpo : o.post_only = true) :
    (limitCrosses o.side px book = true → submitNow b o book now = .ok (b, book)) ∧
    (limitCrosses o.side px book = false → 0 ≤ b.maker_queue_ahead_factor →
      0 ≤ b.maker_queue_ahead_extra_qty →
      submitNow b o book now = .ok ({ b with maker_orders := (alSet b.maker_orders o.id
        { symbol := o.symbol, side := o.side, price := px, quantity := o.quantity,
          queue_ahead_qty := (match o.side with
            | .buy => alGetD book.bids px 0
            | .sell => alGetD book.asks px 0) * b.maker_queue_ahead_factor
              + b.maker_queue_ahead_extra_qty,
          filled_qty := 0,
          trade_participation := b.maker_trade_participation }) }, book)) := by
  constructor
  · intro hcross
    simp only [submitNow, htype, hpx, hpo, if_true, hcross]
  · intro hcross hfa hex
    simp only [submitNow, htype, hpx, hpo, if_true, hcross, Bool.false_eq_true,
      if_false, openMaker, if_neg (not_lt.mpr hfa), if_neg (not_lt.mpr hex),
      Except.map]

/-- The S4 book: bid `99@1`, ask `100@2`. -/
def c4book : L2Book := { bids := [(99, 1)], asks := [(100, 2)] }

/-- The S4 order: post-only limit buy `1 @ 100`, which crosses the ask. -/
def c4order : Order :=
  { id := "o1", symbol := "S", side := .buy, order_type := .limit,
    quantity := 1, price := some 100, post_only := true }

/-- C4 witness: the spec's S4 scenario — the crossing post-only buy leaves the
default broker and the book completely unchanged. -/
theorem claim4_post_only_reject_witness :
    c4order.order_type = .limit ∧ c4order.price = some 100 ∧
    c4order.post_only = true ∧ limitCrosses c4order.side 100 c4book = true ∧
    submitNow {} c4order c4book 0 = .ok ({}, c4book) :=
  ⟨rfl, rfl, rfl, by with_unfolding_all decide,
   (claim4_post_only_reject {} c4order c4book 0 100 rfl rfl rfl).1
     (by with_unfolding_all decide)⟩

theorem alGet_alSet_self {α β : Type} [DecidableEq α] (m : List (α × β)) (k : α) (v : β) :
    alGet (alSet m k v) k = some v := by
  induction m with
  | nil => simp [alSet, alGet]
  | cons e rest ih =>
      obtain ⟨k', v'⟩ := e
      unfold alSet
      by_cases h : k' = k
      · rw [if_pos h]; simp [alGet]
      · rw [if_neg h]; unfold alGet; rw [if_neg h]; exact ih

/-- A positive-quantity taker consumption always succeeds, with a zero fill
exactly when the average price is the NaN marker. -/
theorem consume_taker_fill_isSome (book : L2Book) (side : Side) (qty : ℚ)
    (limit : Option ℚ) (h : 0 < qty) :
    ∃ (avg : Option ℚ) (filled : ℚ) (book' : L2Book),
      consume_taker_fill book side qty limit = some (avg, filled, book') ∧
      (avg = none → filled = 0) ∧ (∀ apx, avg = some apx → 0 < filled) := by
  unfold consume_taker_fill
  rw [if_neg (not_le.mpr h)]
  cases side
  · dsimp only
    split
    · exact ⟨_, _, _, rfl, fun _ => rfl, fun apx hc => by simp at hc⟩
    · next hz =>
        exact ⟨_, _, _, rfl, fun hc => by simp at hc, fun apx _ => not_le.mp hz⟩
  · dsimp only
    split
    · exact ⟨_, _, _, rfl, fun _ => rfl, fun apx hc => by simp at hc⟩
    · next hz =>
        exact ⟨_, _, _, rfl, fun hc => by simp at hc, fun apx _ => not_le.mp hz⟩

/-- `_open_maker` succeeds under non-negative queue parameters, storing the
order id with the queue-ahead seeded from the visible same-side quantity. -/
theorem openMaker_ok (b : SimBroker) (o : Order) (book : L2Book) (px : ℚ)
    (hpx : o.price = some px) (hfa : 0 ≤ b.maker_queue_ahead_factor)
    (hex : 0 ≤ b.maker_queue_ahead_extra_qty) :
    openMaker b o book = .ok { b with maker_orders := (alSet b.maker_orders o.id
      { symbol := o.symbol, side := o.side, price := px, quantity := o.quantity,
        queue_ahead_qty := (match o.side with
          | .buy => alGetD book.bids px 0
          | .sell => alGetD book.asks px 0) * b.maker_queue_ahead_factor
            + b.maker_queue_ahead_extra_qty,
        filled_qty := 0, trade_participation := b.maker_trade_participation }) } := by
  simp only [openMaker, hpx, if_neg (not_lt.mpr hfa), if_neg (not_lt.mpr hex)]

/-- C3: a non-post-only GTC limit order routed immediately whose price
crosses the book first taker-fills against the book bounded by the limit
price (appending one taker `Fill` under the order's id when the match is
non-empty), and rests any positive remainder as a maker order at the limit
price under the original order id, with the queue-ahead seeded from the
post-impact book. -/
theorem claim3_gtc_cross_rests_remainder (b : SimBroker) (o : Order) (book : L2Book)
    (now : ℤ) (px : ℚ) (htype : o.order_type = .limit) (hpx : o.price = some px)
    (hpo : o.post_only = false) (htif : o.time_in_force = .GTC) (hq : 0 < o.quantity)
    (hcross : limitCrosses o.side px book = true)
    (hfa : 0 ≤ b.maker_queue_ahead_factor) (hex : 0 ≤ b.maker_queue_ahead_extra_qty) :
    ∃ (avg : Option ℚ) (filled : ℚ) (book₁ : L2Book) (b' : SimBroker),
      consume_taker_fill book o.side o.quantity (some px) = some (avg, filled, book₁) ∧
      submitNow b o book now = .ok (b', book₁) ∧
      (∀ apx, avg = some apx → 0 < filled →
        b'.fills = b.fills ++
          [{ order_id := o.id, symbol := o.symbol, side := o.side,
             quantity := filled, price := apx,
             fee_usdt := filled * apx * b.taker_fee_frac,
             event_time_ms := now, liquidity := .taker }]) ∧
      (filled ≤ 0 → b'.fills = b.fills) ∧
      (0 < o.quantity - filled →
        alGet b'.maker_orders o.id = some
          { symbol := o.symbol, side := o.side, price := px,
            quantity := o.quantity - filled,
            queue_ahead_qty := (match o.side with
              | .buy => alGetD book₁.bids px 0
              | .sell => alGetD book₁.asks px 0) * b.maker_queue_ahead_factor
                + b.maker_queue_ahead_extra_qty,
            filled_qty := 0, trade_participation := b.maker_trade_participation }) ∧
      (o.quantity - filled ≤ 0 → b'.maker_orders = b.maker_orders) := by
  obtain ⟨avg, filled, book₁, hcons, hnone, hsome⟩ :=
    consume_taker_fill_isSome book o.side o.quantity (some px) hq
  cases avg with
  | none =>
      have hf0 : filled = 0 := hnone rfl
      subst hf0
      have hft : fillTaker b o book now (some px) = .ok ((none, 0), b, book₁) := by
        simp only [fillTaker, hcons]
      have hrem : 0 < o.quantity - 0 := by simpa using hq
      have hom := openMaker_ok b
        { id := o.id, symbol := o.symbol, side := o.side, order_type := .limit,
          quantity := o.quantity - 0, price := some px, time_in_force := .GTC,
          post_only := false, created_time_ms := o.created_time_ms } book₁ px rfl hfa hex
      have hroute : submitNow b o book now
          = (openMaker b
              { id := o.id, symbol := o.symbol, side := o.side, order_type := .limit,
                quantity := o.quantity - 0, price := some px, time_in_force := .GTC,
                post_only := false, created_time_ms := o.created_time_ms }
              book₁).map (fun b2 => (b2, book₁)) := by
        simp only [submitNow, htype, hpx, hpo, Bool.false_eq_true, if_false, htif,
          reduceCtorEq, hcross, if_true, hft, if_pos hrem]
      have hsub := hroute.trans (congrArg (Except.map (fun b2 => (b2, book₁))) hom)
      refine ⟨none, 0, book₁, _, hcons, hsub, ?_, ?_, ?_, ?_⟩
      · intro apx hc; cases hc
      · intro _; rfl
      · intro _
        exact alGet_alSet_self b.maker_orders o.id _
      · intro hc; exact absurd hrem (not_lt.mpr hc)
  | some apx =>
      have hfpos : 0 < filled := hsome apx rfl
      have hft : fillTaker b o book now (some px) = .ok ((some apx, filled),
          { b with
            portfolio := b.portfolio.apply_fill o.symbol o.side filled apx
              (filled * apx * b.taker_fee_frac),
            fills := b.fills ++
              [{ order_id := o.id, symbol := o.symbol, side := o.side,
                 quantity := filled, price := apx,
                 fee_usdt := filled * apx * b.taker_fee_frac,
                 event_time_ms := now, liquidity := .taker }] }, book₁) := by
        simp only [fillTaker, hcons]
        rw [if_neg (not_le.mpr hfpos)]
      by_cases hrem : 0 < o.quantity - filled
      · have hom := openMaker_ok
          { b with
            portfolio := b.portfolio.apply_fill o.symbol o.side filled apx
              (filled * apx * b.taker_fee_frac),
            fills := b.fills ++
              [{ order_id := o.id, symbol := o.symbol, side := o.side,
                 quantity := filled, price := apx,
                 fee_usdt := filled * apx * b.taker_fee_frac,
                 event_time_ms := now, liquidity := .taker }] }
          { id := o.id, symbol := o.symbol, side := o.side, order_type := .limit,
            quantity := o.quantity - filled, price := some px, time_in_force := .GTC,
            post_only := false, created_time_ms := o.created_time_ms } book₁ px rfl hfa hex
        have hroute : submitNow b o book now
            = (openMaker
                { b with
                  portfolio := b.portfolio.apply_fill o.symbol o.side filled apx
                    (filled * apx * b.taker_fee_frac),
                  fills := b.fills ++
                    [{ order_id := o.id, symbol := o.symbol, side := o.side,
                       quantity := filled, price := apx,
                       fee_usdt := filled * apx * b.taker_fee_frac,
                       event_time_ms := now, liquidity := .taker }] }
                { id := o.id, symbol := o.symbol, side := o.side, order_type := .limit,
                  quantity := o.quantity - filled, price := some px,
                  time_in_force := .GTC, post_only := false,
                  created_time_ms := o.created_time_ms }
                book₁).map (fun b2 => (b2, book₁)) := by
          simp only [submitNow, htype, hpx, hpo, Bool.false_eq_true, if_false, htif,
            reduceCtorEq, hcross, if_true, hft, if_pos hrem]
        have hsub := hroute.trans (congrArg (Except.map (fun b2 => (b2, book₁))) hom)
        refine ⟨some apx, filled, book₁, _, hcons, hsub, ?_, ?_, ?_, ?_⟩
        · intro apx' hc hf
          cases hc; rfl
        · intro hc; exact absurd hc (not_le.mpr hfpos)
        · intro _
          exact alGet_alSet_self _ o.id _
        · intro hc; exact absurd hrem (not_lt.mpr hc)
      · have hsub : submitNow b o book now
            = .ok ({ b with
                portfolio := b.portfolio.apply_fill o.symbol o.side filled apx
                  (filled * apx * b.taker_fee_frac),
                fills := b.fills ++
                  [{ order_id := o.id, symbol := o.symbol, side := o.side,
                     quantity := filled, price := apx,
                     fee_usdt := filled * apx * b.taker_fee_frac,
                     event_time_ms := now, liquidity := .taker }] }, book₁) := by
          simp only [submitNow, htype, hpx, hpo, Bool.false_eq_true, if_false, htif,
            reduceCtorEq, hcross, if_true, hft, if_neg hrem]
        refine ⟨some apx, filled, book₁, _, hcons, hsub, ?_, ?_, ?_, ?_⟩
        · intro apx' hc hf
          cases hc; rfl
        · intro hc; exact absurd hc (not_le.mpr hfpos)
        · intro hc; exact absurd hc hrem
        · intro _; rfl

/-- The S6 book: ask `100@1`, ask `101@10`, empty bid side. -/
def c3book : L2Book := { bids := [], asks := [(100, 1), (101, 10)] }

/-- The S6 order: GTC limit buy `5 @ 100.5` (no post-only). -/
def c3order : Order :=
  { id := "g1", symbol := "S", side := .buy, order_type := .limit,
    quantity := 5, price := some (201/2), time_in_force := .GTC, post_only := false }

/-- C3 witness: the GTC-crossing theorem applied to the spec's S6 scenario,
together with the concrete outcome — one taker fill `1.0 @ 100` and a resting
maker remainder `4.0 @ 100.5` stored under the original order id. -/
theorem claim3_gtc_cross_rests_remainder_witness :
    c3order.order_type = .limit ∧ c3order.price = some (201/2) ∧
    c3order.post_only = false ∧ c3order.time_in_force = .GTC ∧
    (0:ℚ) < c3order.quantity ∧ limitCrosses c3order.side (201/2) c3book = true ∧
    (0:ℚ) ≤ ({} : SimBroker).maker_queue_ahead_factor ∧
    (0:ℚ) ≤ ({} : SimBroker).maker_queue_ahead_extra_qty ∧
    (∃ (avg : Option ℚ) (filled : ℚ) (book₁ : L2Book) (b' : SimBroker),
      consume_taker_fill c3book c3order.side c3order.quantity (some (201/2))
          = some (avg, filled, book₁) ∧
      submitNow {} c3order c3book 0 = .ok (b', book₁) ∧
      (∀ apx, avg = some apx → 0 < filled →
        b'.fills = ({} : SimBroker).fills ++
          [{ order_id := c3order.id, symbol := c3order.symbol, side := c3order.side,
             quantity := filled, price := apx,
             fee_usdt := filled * apx * ({} : SimBroker).taker_fee_frac,
             event_time_ms := 0, liquidity := .taker }]) ∧
      (filled ≤ 0 → b'.fills = ({} : SimBroker).fills) ∧
      (0 < c3order.quantity - filled →
        alGet b'.maker_orders c3order.id = some
          { symbol := c3order.symbol, side := c3order.side, price := 201/2,
            quantity := c3order.quantity - filled,
            queue_ahead_qty := (match c3order.side with
              | .buy => alGetD book₁.bids (201/2) 0
              | .sell => alGetD book₁.asks (201/2) 0)
                * ({} : SimBroker).maker_queue_ahead_factor
                + ({} : SimBroker).maker_queue_ahead_extra_qty,
            filled_qty := 0,
            trade_participation := ({} : SimBroker).maker_trade_participation }) ∧
      (c3order.quantity - filled ≤ 0 → b'.maker_orders = ({} : SimBroker).maker_orders)) ∧
    ((submitNow {} c3order c3book 0).toOption.map
        (fun r => (r.1.fills, alGet r.1.maker_orders "g1", r.2))
      = some ([{ order_id := "g1", symbol := "S", side := .buy, quantity := 1,
                 price := 100, fee_usdt := 1/20, event_time_ms := 0,
                 liquidity := .taker }],
             some { symbol := "S", side := .buy, price := 201/2, quantity := 4,
                    queue_ahead_qty := 0, filled_qty := 0, trade_participation := 1 },
             ({ bids := [], asks := [(101, 10)] } : L2Book))) := by
  refine ⟨rfl, rfl, rfl, rfl, by norm_num [c3order], by with_unfolding_all decide,
    by norm_num, by norm_num, ?_, ?_⟩

  · exact claim3_gtc_cross_rests_remainder {} c3order c3book 0 (201/2)
      rfl rfl rfl rfl (by norm_num [c3order]) (by with_unfolding_all decide)
      (by norm_num) (by norm_num)
  · with_unfolding_all decide

/-- C7 (amended): `SimBroker` performs no construction-time validation —
the dataclass constructor stores every field verbatim; an invalid
`maker_queue_ahead_factor` or `maker_queue_ahead_extra_qty` raises only when
the first maker order is opened, a `maker_trade_participation` outside
`(0, 1]` raises only when a matching trade first reaches a resting
non-terminal order, and negative fees or latencies are never rejected
anywhere. -/
theorem claim7_validation_deferred :
    (∀ (mf tf : ℚ) (sl cl : ℤ) (fa ex tp : ℚ),
      (SimBroker.construct mf tf sl cl fa ex tp).maker_fee_frac = mf ∧
      (SimBroker.construct mf tf sl cl fa ex tp).taker_fee_frac = tf ∧
      (SimBroker.construct mf tf sl cl fa ex tp).submit_latency_ms = sl ∧
      (SimBroker.construct mf tf sl cl fa ex tp).cancel_latency_ms = cl ∧
      (SimBroker.construct mf tf sl cl fa ex tp).maker_queue_ahead_factor = fa ∧
      (SimBroker.construct mf tf sl cl fa ex tp).maker_queue_ahead_extra_qty = ex ∧
      (SimBroker.construct mf tf sl cl fa ex tp).maker_trade_participation = tp) ∧
    (∀ (b : SimBroker) (o : Order) (book : L2Book) (px : ℚ), o.price = some px →
      b.maker_queue_ahead_factor < 0 →
      openMaker b o book = .error "maker_queue_ahead_factor must be >= 0") ∧
    (∀ (b : SimBroker) (o : Order) (book : L2Book) (px : ℚ), o.price = some px →
      0 ≤ b.maker_queue_ahead_factor → b.maker_queue_ahead_extra_qty < 0 →
      openMaker b o book = .error "maker_queue_ahead_extra_qty must be >= 0") ∧
    (∀ (o : MakerQueueOrder) (t : Trade), tradeMatches o t → o.is_filled = false →
      ¬ (0 < o.trade_participation ∧ o.trade_participation ≤ 1) →
      o.on_trade t = none) := by
  refine ⟨fun _ _ _ _ _ _ _ => ⟨rfl, rfl, rfl, rfl, rfl, rfl, rfl⟩, ?_, ?_, ?_⟩
  · intro b o book px hpx hfa
    simp only [openMaker, hpx, if_pos hfa]
  · intro b o book px hpx hfa hex
    simp only [openMaker, hpx, if_neg (not_lt.mpr hfa), if_pos hex]
  · intro o t hm hnf hinv
    obtain ⟨h1, h2, h3, h4⟩ := hm
    unfold MakerQueueOrder.on_trade
    rw [if_neg (by simpa using h1), if_neg (by simp [hnf]),
        if_neg (by simpa using h2)]
    rw [if_neg (show ¬ _ by
      cases hs : o.side
      · simp [hs, h3 hs]
      · simp [hs, h4 hs])]
    rw [if_pos hinv]

/-- C7 counterexample: `SimBroker(...)` called with a negative maker fee,
negative latencies, negative queue-ahead parameters and
`maker_trade_participation = 2` does not fail — the dataclass stores the
invalid values verbatim — and the queue-parameter error surfaces only when a
maker order is first opened. -/
theorem claim7_counterexample :
    (SimBroker.construct (-1) (-1) (-5) (-5) (-1) (-1) 2).maker_fee_frac = -1 ∧
    (SimBroker.construct (-1) (-1) (-5) (-5) (-1) (-1) 2).submit_latency_ms = -5 ∧
    (SimBroker.construct (-1) (-1) (-5) (-5) (-1) (-1) 2).maker_queue_ahead_factor = -1 ∧
    (SimBroker.construct (-1) (-1) (-5) (-5) (-1) (-1) 2).maker_trade_participation = 2 ∧
    openMaker (SimBroker.construct (-1) (-1) (-5) (-5) (-1) (-1) 2) c4order c4book
      = .error "maker_queue_ahead_factor must be >= 0" := by
  refine ⟨rfl, rfl, rfl, rfl, ?_⟩
  with_unfolding_all rfl

/-- A resting order with the out-of-range participation `2`, used to witness
the deferred `trade_participation` check. -/
def c7mo : MakerQueueOrder :=
  { symbol := "S", side := .buy, price := 100, quantity := 1,
    queue_ahead_qty := 1/2, filled_qty := 0, trade_participation := 2 }

/-- C7 witness: the deferred-validation theorem instantiated at concrete
values — verbatim construction, both queue-parameter errors, and the
participation error on the first matching trade. -/
theorem claim7_validation_deferred_witness :
    ((SimBroker.construct 1 2 3 4 5 6 (1/2)).maker_fee_frac = 1 ∧
     (SimBroker.construct 1 2 3 4 5 6 (1/2)).taker_fee_frac = 2 ∧
     (SimBroker.construct 1 2 3 4 5 6 (1/2)).submit_latency_ms = 3 ∧
     (SimBroker.construct 1 2 3 4 5 6 (1/2)).cancel_latency_ms = 4 ∧
     (SimBroker.construct 1 2 3 4 5 6 (1/2)).maker_queue_ahead_factor = 5 ∧
     (SimBroker.construct 1 2 3 4 5 6 (1/2)).maker_queue_ahead_extra_qty = 6 ∧
     (SimBroker.construct 1 2 3 4 5 6 (1/2)).maker_trade_participation = 1/2) ∧
    openMaker (SimBroker.construct 0 0 0 0 (-1) 0 1) c4order c4book
      = .error "maker_queue_ahead_factor must be >= 0" ∧
    openMaker (SimBroker.construct 0 0 0 0 0 (-1) 1) c4order c4book
      = .error "maker_queue_ahead_extra_qty must be >= 0" ∧
    c7mo.on_trade c5t = none :=
  ⟨claim7_validation_deferred.1 1 2 3 4 5 6 (1/2),
   claim7_validation_deferred.2.1 _ c4order c4book 100 rfl (by norm_num [SimBroker.construct]),
   claim7_validation_deferred.2.2.1 _ c4order c4book 100 rfl
     (by norm_num [SimBroker.construct]) (by norm_num [SimBroker.construct]),
   claim7_validation_deferred.2.2.2 c7mo c5t
     (by
       refine ⟨rfl, by norm_num [c7mo, c5t, rabs, priceEps], fun _ => rfl, fun h => ?_⟩
       rw [show c7mo.side = Side.buy from rfl] at h
       cases h)
     (by with_unfolding_all decide)
     (by norm_num [c7mo])⟩

/-! ## Cancel-before-submit at the same instant (claim C9) -/

/-- Keys of an association list. -/
def alKeys {α β : Type} (m : List (α × β)) : List α := m.map Prod.fst

theorem alGet_eq_none_of_not_mem {α β : Type} [DecidableEq α]
    (m : List (α × β)) (k : α) (h : k ∉ alKeys m) : alGet m k = none := by
  induction m with
  | nil => rfl
  | cons e rest ih =>
      obtain ⟨k', v'⟩ := e
      unfold alGet
      rw [if_neg]
      · exact ih (fun hm => h (List.mem_cons_of_mem _ hm))
      · intro hk
        exact h (by simp [alKeys, hk])

theorem alKeys_alErase_sublist {α β : Type} [DecidableEq α] (m : List (α × β)) (k : α) :
    (alKeys (alErase m k)).Sublist (alKeys m) := by
  induction m with
  | nil => simp [alErase]
  | cons e rest ih =>
      obtain ⟨k', v'⟩ := e
      unfold alErase
      by_cases h : k' = k
      · rw [if_pos h]
        exact (List.sublist_cons_self k' (alKeys rest))
      · rw [if_neg h]
        exact ih.cons₂ k'

theorem not_mem_alKeys_alErase {α β : Type} [DecidableEq α] (m : List (α × β)) (k : α)
    (hnd : (alKeys m).Nodup) : k ∉ alKeys (alErase m k) := by
  induction m with
  | nil => simp [alErase, alKeys]
  | cons e rest ih =>
      obtain ⟨k', v'⟩ := e
      unfold alErase
      by_cases h : k' = k
      · rw [if_pos h]
        subst h
        exact (List.nodup_cons.mp hnd).1
      · rw [if_neg h]
        intro hm
        rcases List.mem_cons.mp hm with h1 | h2
        · exact h h1.symm
        · exact ih (List.nodup_cons.mp hnd).2 h2

theorem alGet_alErase_none {α β : Type} [DecidableEq α] (m : List (α × β)) (k k' : α)
    (h : alGet m k = none) : alGet (alErase m k') k = none := by
  induction m with
  | nil => rfl
  | cons e rest ih =>
      obtain ⟨k'', v''⟩ := e
      unfold alGet at h
      by_cases hk : k'' = k
      · rw [if_pos hk] at h; cases h
      · rw [if_neg hk] at h
        unfold alErase
        by_cases he : k'' = k'
        · rw [if_pos he]; exact h
        · rw [if_neg he]
          unfold alGet
          rw [if_neg hk]
          exact ih h

theorem alGet_alSet_ne {α β : Type} [DecidableEq α] (m : List (α × β)) (k k' : α)
    (v : β) (hne : k ≠ k') : alGet (alSet m k v) k' = alGet m k' := by
  induction m with
  | nil => simp [alSet, alGet, hne]
  | cons e rest ih =>
      obtain ⟨k'', v''⟩ := e
      unfold alSet
      by_cases h : k'' = k
      · rw [if_pos h]
        unfold alGet
        rw [if_neg hne, if_neg (h ▸ hne)]
      · rw [if_neg h]
        unfold alGet
        by_cases h2 : k'' = k'
        · rw [if_pos h2, if_pos h2]
        · rw [if_neg h2, if_neg h2]
          exact ih

/-- The fills of a broker carrying a given order id. -/
def fillsOf (id : String) (b : SimBroker) : List Fill :=
  b.fills.filter (fun f => decide (f.order_id = id))

/-- A taker routing for an order with a different id never touches the maker
map, the canceled set, or fills carrying the given id. -/
theorem fillTaker_other_id (b : SimBroker) (o : Order) (book : L2Book) (now : ℤ)
    (lp : Option ℚ) (id : String) (hne : o.id ≠ id) (res : Option ℚ × ℚ)
    (b1 : SimBroker) (book1 : L2Book)
    (h : fillTaker b o book now lp = .ok (res, b1, book1)) :
    b1.maker_orders = b.maker_orders ∧ fillsOf id b1 = fillsOf id b ∧
    b1.canceled = b.canceled := by
  unfold fillTaker at h
  split at h
  · cases h
  · split at h
    · rcases h with ⟨⟩
      exact ⟨rfl, rfl, rfl⟩
    · split at h
      · rcases h with ⟨⟩
        exact ⟨rfl, rfl, rfl⟩
      · rcases h with ⟨⟩
        refine ⟨rfl, ?_, rfl⟩
        unfold fillsOf
        simp [List.filter_append, hne]

/-- Routing an order with a different id preserves the maker-map entry for
that id, the id-filtered fills and the canceled set. -/
theorem submitNow_other_id (b : SimBroker) (o : Order) (book : L2Book) (now : ℤ)
    (id : String) (hne : o.id ≠ id) (b1 : SimBroker) (book1 : L2Book)
    (h : submitNow b o book now = .ok (b1, book1)) :
    alGet b1.maker_orders id = alGet b.maker_orders id ∧
    fillsOf id b1 = fillsOf id b ∧ b1.canceled = b.canceled := by
  have hmap : ∀ (e : Except String ((Option ℚ × ℚ) × SimBroker × L2Book)),
      e.map (fun r => (r.2.1, r.2.2)) = .ok (b1, book1) →
      ∃ res, e = .ok (res, b1, book1) := by
    intro e he
    cases e with
    | error _ => cases he
    | ok r =>
        obtain ⟨res, br, bk⟩ := r
        rcases he with ⟨⟩
        exact ⟨res, rfl⟩
  have hopen : ∀ (bb : SimBroker) (oo : Order) (bk bkout : L2Book),
      oo.id = o.id →
      (openMaker bb oo bk).map (fun b2 => (b2, bkout)) = .ok (b1, book1) →
      alGet b1.maker_orders id = alGet bb.maker_orders id ∧
      b1.fills = bb.fills ∧ b1.canceled = bb.canceled := by
    intro bb oo bk bkout hid hmm
    cases hm : openMaker bb oo bk with
    | error e => rw [hm] at hmm; cases hmm
    | ok bres =>
        rw [hm] at hmm
        rcases hmm with ⟨⟩
        unfold openMaker at hm
        cases hp : oo.price with
        | none => rw [hp] at hm; cases hm
        | some pxv =>
            rw [hp] at hm
            simp only [] at hm
            by_cases hfa : bb.maker_queue_ahead_factor < 0
            · rw [if_pos hfa] at hm; cases hm
            · rw [if_neg hfa] at hm
              by_cases hex2 : bb.maker_queue_ahead_extra_qty < 0
              · rw [if_pos hex2] at hm; cases hm
              · rw [if_neg hex2] at hm
                rcases hm with ⟨⟩
                exact ⟨alGet_alSet_ne _ _ _ _ (fun hcon => hne (hid.symm.trans hcon)),
                  rfl, rfl⟩
  unfold submitNow at h
  split at h
  -- market order
  · obtain ⟨res, hft⟩ := hmap _ h
    obtain ⟨hm, hf, hc⟩ := fillTaker_other_id b o book now none id hne res b1 book1 hft
    exact ⟨by rw [hm], hf, hc⟩
  -- limit order
  · split at h
    · cases h
    · rename_i pxv hpxeq
      split at h
      -- post-only
      · split at h
        · rcases h with ⟨⟩
          exact ⟨rfl, rfl, rfl⟩
        · obtain ⟨hm, hf, hc⟩ := hopen b o book book rfl h
          exact ⟨hm, by unfold fillsOf; rw [hf], hc⟩
      · split at h
        -- IOC
        · obtain ⟨res, hft⟩ := hmap _ h
          obtain ⟨hm, hf, hc⟩ := fillTaker_other_id b o book now _ id hne res b1 book1 hft
          exact ⟨by rw [hm], hf, hc⟩
        · split at h
          -- GTC crossing
          · split at h
            · cases h
            · rename_i avgv fillv bmid bkmid heq
              obtain ⟨hm0, hf0, hc0⟩ := fillTaker_other_id b o book now _ id hne
                (avgv, fillv) bmid bkmid heq
              simp only [] at h
              split at h
              · obtain ⟨hm, hf, hc⟩ := hopen bmid
                  { id := o.id, symbol := o.symbol, side := o.side, order_type := .limit,
                    quantity := o.quantity - fillv, price := some pxv,
                    time_in_force := .GTC, post_only := false,
                    created_time_ms := o.created_time_ms } bkmid bkmid rfl h
                refine ⟨by rw [hm, hm0], ?_, by rw [hc, hc0]⟩
                have hx : fillsOf id b1 = fillsOf id bmid := by unfold fillsOf; rw [hf]
                rw [hx, hf0]
              · rcases h with ⟨⟩
                exact ⟨by rw [hm0], hf0, hc0⟩
          -- GTC resting
          · obtain ⟨hm, hf, hc⟩ := hopen b o book book rfl h
            exact ⟨hm, by unfold fillsOf; rw [hf], hc⟩

theorem cancelFold_fills (l : List (ℤ × ℤ × String)) :
    ∀ acc : SimBroker,
    (l.foldl (fun a e => cancelNow a e.2.2) acc).fills = acc.fills := by
  induction l with
  | nil => intro acc; rfl
  | cons e rest ih => intro acc; exact ih (cancelNow acc e.2.2)

theorem cancelFold_pending_submits (l : List (ℤ × ℤ × String)) :
    ∀ acc : SimBroker,
    (l.foldl (fun a e => cancelNow a e.2.2) acc).pending_submits = acc.pending_submits := by
  induction l with
  | nil => intro acc; rfl
  | cons e rest ih => intro acc; exact ih (cancelNow acc e.2.2)

theorem mem_canceled_cancelNow (a : SimBroker) (x id : String)
    (h : id ∈ a.canceled ∨ x = id) : id ∈ (cancelNow a x).canceled := by
  unfold cancelNow
  dsimp only
  rcases h with h | h
  · split
    · exact h
    · exact List.mem_cons_of_mem _ h
  · subst h
    split
    · next hmem => exact hmem
    · exact List.mem_cons_self _ _

theorem cancelFold_mem_canceled (id : String) (l : List (ℤ × ℤ × String)) :
    ∀ acc : SimBroker,
    (id ∈ acc.canceled ∨ ∃ e ∈ l, e.2.2 = id) →
    id ∈ (l.foldl (fun a e => cancelNow a e.2.2) acc).canceled := by
  induction l with
  | nil =>
      intro acc h
      rcases h with h | ⟨e, he, _⟩
      · exact h
      · cases he
  | cons e rest ih =>
      intro acc h
      show id ∈ (rest.foldl _ (cancelNow acc e.2.2)).canceled
      rcases h with h | ⟨f, hf, hfid⟩
      · exact ih _ (Or.inl (mem_canceled_cancelNow acc e.2.2 id (Or.inl h)))
      · rcases List.mem_cons.mp hf with h1 | h2
        · subst h1
          exact ih _ (Or.inl (mem_canceled_cancelNow acc f.2.2 id (Or.inr hfid)))
        · exact ih _ (Or.inr ⟨f, h2, hfid⟩)

theorem cancelNow_keys_nodup (a : SimBroker) (x : String)
    (h : (alKeys a.maker_orders).Nodup) :
    (alKeys (cancelNow a x).maker_orders).Nodup :=
  h.sublist (alKeys_alErase_sublist a.maker_orders x)

theorem cancelFold_maker_none (id : String) (l : List (ℤ × ℤ × String)) :
    ∀ acc : SimBroker, (alKeys acc.maker_orders).Nodup →
    (alGet acc.maker_orders id = none ∨ ∃ e ∈ l, e.2.2 = id) →
    alGet (l.foldl (fun a e => cancelNow a e.2.2) acc).maker_orders id = none := by
  induction l with
  | nil =>
      intro acc _ h
      rcases h with h | ⟨e, he, _⟩
      · exact h
      · cases he
  | cons e rest ih =>
      intro acc hnd h
      show alGet (rest.foldl _ (cancelNow acc e.2.2)).maker_orders id = none
      rcases h with h | ⟨f, hf, hfid⟩
      · exact ih _ (cancelNow_keys_nodup acc e.2.2 hnd)
          (Or.inl (alGet_alErase_none _ _ _ h))
      · rcases List.mem_cons.mp hf with h1 | h2
        · subst h1
          refine ih _ (cancelNow_keys_nodup acc f.2.2 hnd) (Or.inl ?_)
          show alGet (alErase acc.maker_orders f.2.2) id = none
          rw [hfid]
          exact alGet_eq_none_of_not_mem _ _ (not_mem_alKeys_alErase _ _ hnd)
        · exact ih _ (cancelNow_keys_nodup acc e.2.2 hnd) (Or.inr ⟨f, h2, hfid⟩)

/-- The due-submit drain never resurrects an id that was flagged canceled
(with at most one due submit carrying it), and appends no fill under it. -/
theorem submitsLoop_spec (id : String) (now : ℤ) :
    ∀ (l : List (ℤ × ℤ × Order × L2Book)) (b b' : SimBroker),
    alGet b.maker_orders id = none →
    ((id ∈ b.canceled ∧ l.countP (fun e => decide (e.2.2.1.id = id)) ≤ 1) ∨
      l.countP (fun e => decide (e.2.2.1.id = id)) = 0) →
    submitsLoop b now l = .ok b' →
    alGet b'.maker_orders id = none ∧ fillsOf id b' = fillsOf id b := by
  intro l
  induction l with
  | nil =>
      intro b b' hmk _ hok
      rcases hok with ⟨⟩
      exact ⟨hmk, rfl⟩
  | cons e rest ih =>
      intro b b' hmk hinv hok
      obtain ⟨d, sq, o, bk⟩ := e
      unfold submitsLoop at hok
      have hcount : (List.countP (fun e => decide (e.2.2.1.id = id)) ((d, sq, o, bk) :: rest))
          = (if o.id = id then 1 else 0) + List.countP (fun e => decide (e.2.2.1.id = id)) rest := by
        rw [List.countP_cons]
        by_cases hc : o.id = id <;> simp [hc, Nat.add_comm]
      split at hok
      · -- id flagged: submit discarded
        next hmem =>
        by_cases hoid : o.id = id
        · -- the one pending submit for id is dropped; no further occurrence
          refine ih { b with canceled := b.canceled.erase o.id } b' hmk (Or.inr ?_) hok
          rcases hinv with ⟨_, hcnt⟩ | hcnt
          · rw [hcount, if_pos hoid] at hcnt
            omega
          · rw [hcount, if_pos hoid] at hcnt
            omega
        · refine ih { b with canceled := b.canceled.erase o.id } b' hmk ?_ hok
          rcases hinv with ⟨hmc, hcnt⟩ | hcnt
          · refine Or.inl ⟨?_, ?_⟩
            · show id ∈ (b.canceled.erase o.id)
              exact (List.mem_erase_of_ne (fun hcon => hoid hcon.symm)).mpr hmc
            · rw [hcount, if_neg hoid] at hcnt
              omega
          · refine Or.inr ?_
            rw [hcount, if_neg hoid] at hcnt
            omega
      · -- not flagged: routed through _submit_now
        next hmem =>
        have hoid : o.id ≠ id := by
          intro hcon
          rcases hinv with ⟨hmc, _⟩ | hcnt
          · exact hmem (hcon ▸ hmc)
          · rw [hcount, if_pos hcon] at hcnt
            omega
        split at hok
        · cases hok
        · rename_i bnext bknext heq
          obtain ⟨hm1, hf1, hc1⟩ := submitNow_other_id b o bk now id hoid bnext bknext heq
          have hrest := ih bnext b' (by rw [hm1]; exact hmk) ?_ hok
          · exact ⟨hrest.1, by rw [hrest.2, hf1]⟩
          · rcases hinv with ⟨hmc, hcnt⟩ | hcnt
            · refine Or.inl ⟨by rw [hc1]; exact hmc, ?_⟩
              rw [hcount, if_neg hoid] at hcnt
              omega
            · refine Or.inr ?_
              rw [hcount, if_neg hoid] at hcnt
              omega

theorem countP_takeWhile_le {α : Type} (p q : α → Bool) (l : List α) :
    (l.takeWhile q).countP p ≤ l.countP p := by
  induction l with
  | nil => simp
  | cons a t ih =>
      by_cases hq : q a
      · rw [List.takeWhile_cons_of_pos hq, List.countP_cons, List.countP_cons]
        omega
      · rw [List.takeWhile_cons_of_neg hq]
        simp [List.countP_cons]

theorem mem_takeWhile_of_sorted {α : Type} (key : α → ℤ) (now : ℤ) :
    ∀ (l : List α), l.Pairwise (fun a c => key a ≤ key c) →
    ∀ e, e ∈ l → key e ≤ now →
    e ∈ l.takeWhile (fun x => decide (key x ≤ now)) := by
  intro l
  induction l with
  | nil => intro _ e he _; cases he
  | cons a t ih =>
      intro hp e he hkey
      rcases List.mem_cons.mp he with h1 | h2
      · subst h1
        rw [List.takeWhile_cons_of_pos (by simpa using hkey)]
        exact List.mem_cons_self _ _
      · have hak : key a ≤ key e := (List.pairwise_cons.mp hp).1 e h2
        rw [List.takeWhile_cons_of_pos (by simp only [decide_eq_true_eq]; omega)]
        exact List.mem_cons_of_mem _ (ih (List.pairwise_cons.mp hp).2 e h2 hkey)

/-- C9: when a pending cancel for an order id and the (unique) pending submit
of that id are both due at or before an `on_time(now)` call, the cancel is
processed first and the submit is discarded: afterwards the id is not resting
in the maker-order map and no fill carrying it has been produced. -/
theorem claim9_cancel_before_submit (b : SimBroker) (now : ℤ) (id : String)
    (d1 s1 : ℤ) (hc : (d1, s1, id) ∈ b.pending_cancels) (hd1 : d1 ≤ now)
    (_hsub : ∃ e ∈ b.pending_submits, e.2.2.1.id = id ∧ e.1 ≤ now)
    (hsortC : b.pending_cancels.Pairwise (fun a c => a.1 ≤ c.1))
    (hnodup : (alKeys b.maker_orders).Nodup)
    (hcount : b.pending_submits.countP (fun e => decide (e.2.2.1.id = id)) ≤ 1)
    (b' : SimBroker) (hok : onTime b now = .ok b') :
    alGet b'.maker_orders id = none ∧ fillsOf id b' = fillsOf id b := by
  unfold onTime at hok
  simp only [] at hok
  have hcmem : (d1, s1, id) ∈ b.pending_cancels.takeWhile (fun e => decide (e.1 ≤ now)) :=
    mem_takeWhile_of_sorted (fun e => e.1) now b.pending_cancels hsortC (d1, s1, id) hc hd1
  have hspec := fun hmk hinv => submitsLoop_spec id now _ _ b' hmk hinv hok
  obtain ⟨hm', hf'⟩ := hspec
    (cancelFold_maker_none id _ _ hnodup (Or.inr ⟨(d1, s1, id), hcmem, rfl⟩))
    (Or.inl ⟨cancelFold_mem_canceled id _ _ (Or.inr ⟨(d1, s1, id), hcmem, rfl⟩), by
      refine le_trans (countP_takeWhile_le _ _ _) ?_
      rw [cancelFold_pending_submits]
      exact hcount⟩)
  have hfb : ∀ (c : SimBroker), c.fills = b.fills → fillsOf id c = fillsOf id b :=
    fun c h => by unfold fillsOf; rw [h]
  exact ⟨hm', hf'.trans (hfb _ (cancelFold_fills _ _))⟩

/-- The C9 order: a GTC limit buy pending activation under id `"x1"`. -/
def c9order : Order :=
  { id := "x1", symbol := "S", side := .buy, order_type := .limit,
    quantity := 1, price := some 100, time_in_force := .GTC, post_only := false }

/-- The C9 broker: a cancel for `"x1"` and the submit of `"x1"` both due at
time `5` (the cancel with the earlier sequence number). -/
def c9b : SimBroker :=
  { pending_cancels := [(5, 1, "x1")], pending_submits := [(5, 2, c9order, c4book)] }

/-- C9 witness: the cancel-first theorem applied to the concrete same-instant
race; `on_time(5)` consumes both entries, leaving the pristine broker. -/
theorem claim9_cancel_before_submit_witness :
    ((5:ℤ), (1:ℤ), "x1") ∈ c9b.pending_cancels ∧ (5:ℤ) ≤ 5 ∧
    (∃ e ∈ c9b.pending_submits, e.2.2.1.id = "x1" ∧ e.1 ≤ 5) ∧
    c9b.pending_cancels.Pairwise (fun a c => a.1 ≤ c.1) ∧
    (alKeys c9b.maker_orders).Nodup ∧
    c9b.pending_submits.countP (fun e => decide (e.2.2.1.id = "x1")) ≤ 1 ∧
    onTime c9b 5 = .ok {} ∧
    alGet ({} : SimBroker).maker_orders "x1" = none ∧
    fillsOf "x1" ({} : SimBroker) = fillsOf "x1" c9b := by
  have hok : onTime c9b 5 = .ok ({} : SimBroker) := by with_unfolding_all rfl
  refine ⟨by simp [c9b], by norm_num,
    ⟨(5, 2, c9order, c4book), by simp [c9b], rfl, by norm_num⟩,
    by simp [c9b], by simp [c9b, alKeys],
    by with_unfolding_all decide, hok, ?_, ?_⟩
  · exact (claim9_cancel_before_submit c9b 5 "x1" 5 1 (by simp [c9b]) (by norm_num)
      ⟨(5, 2, c9order, c4book), by simp [c9b], rfl, by norm_num⟩ (by simp [c9b])
      (by simp [c9b, alKeys]) (by with_unfolding_all decide) {} hok).1
  · exact (claim9_cancel_before_submit c9b 5 "x1" 5 1 (by simp [c9b]) (by norm_num)
      ⟨(5, 2, c9order, c4book), by simp [c9b], rfl, by norm_num⟩ (by simp [c9b])
      (by simp [c9b, alKeys]) (by with_unfolding_all decide) {} hok).2

/-! ## Impact VWAP (`L2Book.impact_vwap`, claim C6) -/

/-- Total notional of a price→quantity list. -/
def sumNotional : List (ℚ × ℚ) → ℚ
  | [] => 0
  | (p, q) :: rest => p * q + sumNotional rest

/-- The level-consumption loop of `impact_vwap`: walks the given levels,
taking `min(level_notional, remaining)` per level until the remaining target
falls within `eps_notional`; returns `(remaining, total_qty, total_cost)`. -/
def vwapWalk : List (ℚ × ℚ) → ℚ → ℚ → ℚ → ℚ × ℚ × ℚ
  | [], remaining, total_qty, total_cost => (remaining, total_qty, total_cost)
  | (price, qty) :: rest, remaining, total_qty, total_cost =>
      if remaining ≤ notionalEps then (remaining, total_qty, total_cost)
      else if qty ≤ 0 then vwapWalk rest remaining total_qty total_cost
      else
        let level_notional := price * qty
        if level_notional ≤ 0 then vwapWalk rest remaining total_qty total_cost
        else
          let take_notional := if level_notional ≤ remaining then level_notional else remaining
          let take_qty := take_notional / price
          vwapWalk rest (remaining - take_notional) (total_qty + take_qty)
            (total_cost + take_qty * price)

/-- The levels `impact_vwap` walks: `heapq.nsmallest`/`nlargest` over a
unique-key price map is the first `max_levels` of the price-sorted list
(`max_levels = 0` means the whole depth, matching Python's falsy `0`). -/
def impactVwapLevels (book : L2Book) (side : Side) (max_levels : ℕ) : List (ℚ × ℚ) :=
  match side with
  | .buy => if max_levels ≠ 0 then (sortAsc book.asks).take max_levels else sortAsc book.asks
  | .sell => if max_levels ≠ 0 then (sortDesc book.bids).take max_levels else sortDesc book.bids

/-- The number of price levels on the side `impact_vwap` walks. -/
def sideLen (book : L2Book) (side : Side) : ℕ :=
  match side with
  | .buy => book.asks.length
  | .sell => book.bids.length

/-- `L2Book.impact_vwap(side, target_notional, max_levels, eps_notional=1e-6)`.
The outer `Option` is the `ValueError` on a non-positive target; the inner
`Option ℚ` is NaN-or-price.  The one-shot retry with full depth (performed
when the level cap both bit and could matter) is inlined. -/
def impact_vwap (book : L2Book) (side : Side) (target_notional : ℚ)
    (max_levels : ℕ) : Option (Option ℚ) :=
  if target_notional ≤ 0 then none
  else
    let res := vwapWalk (impactVwapLevels book side max_levels) target_notional 0 0
    if notionalEps < res.1 ∨ res.2.1 ≤ 0 then
      if max_levels ≠ 0 ∧ max_levels < sideLen book side then
        let res2 := vwapWalk (impactVwapLevels book side 0) target_notional 0 0
        if notionalEps < res2.1 ∨ res2.2.1 ≤ 0 then some none
        else some (some (res2.2.2 / res2.2.1))
      else some none
    else some (res.2.2 / res.2.1)

theorem vwapWalk_stop (l : List (ℚ × ℚ)) (r q c : ℚ) (h : r ≤ notionalEps) :
    vwapWalk l r q c = (r, q, c) := by
  cases l with
  | nil => rfl
  | cons e rest =>
      obtain ⟨p, qq⟩ := e
      unfold vwapWalk
      rw [if_pos h]

theorem sumNotional_nonneg (l : List (ℚ × ℚ))
    (hl : ∀ pq ∈ l, 0 < pq.1 ∧ 0 < pq.2) : 0 ≤ sumNotional l := by
  induction l with
  | nil => exact le_refl 0
  | cons e rest ih =>
      obtain ⟨p, q⟩ := e
      have he := hl (p, q) (List.mem_cons_self _ _)
      have hr := ih (fun pq hm => hl pq (List.mem_cons_of_mem _ hm))
      unfold sumNotional
      nlinarith [he.1, he.2]

theorem vwapWalk_char (l : List (ℚ × ℚ)) (hl : ∀ pq ∈ l, 0 < pq.1 ∧ 0 < pq.2) :
    ∀ r q c : ℚ,
      ((vwapWalk l r q c).1 ≤ notionalEps ∨ (vwapWalk l r q c).1 = r - sumNotional l) ∧
      r - sumNotional l ≤ (vwapWalk l r q c).1 := by
  induction l with
  | nil =>
      intro r q c
      unfold vwapWalk sumNotional
      constructor
      · right; ring
      · simp
  | cons e rest ih =>
      intro r q c
      obtain ⟨p, qq⟩ := e
      have he := hl (p, qq) (List.mem_cons_self _ _)
      have hlr : ∀ pq ∈ rest, 0 < pq.1 ∧ 0 < pq.2 :=
        fun pq hm => hl pq (List.mem_cons_of_mem _ hm)
      have hsum : 0 ≤ sumNotional rest := sumNotional_nonneg rest hlr
      have hln : 0 < p * qq := mul_pos he.1 he.2
      unfold vwapWalk sumNotional
      by_cases h1 : r ≤ notionalEps
      · rw [if_pos h1]
        exact ⟨Or.inl h1, by nlinarith⟩
      · rw [if_neg h1, if_neg (not_le.mpr he.2), if_neg (not_le.mpr hln)]
        by_cases h2 : p * qq ≤ r
        · rw [if_pos h2]
          obtain ⟨hc, hg⟩ := ih hlr (r - p * qq) (q + p * qq / p) (c + p * qq / p * p)
          constructor
          · rcases hc with hc | hc
            · exact Or.inl hc
            · right; rw [hc]; ring
          · calc r - (p * qq + sumNotional rest) = r - p * qq - sumNotional rest := by ring
              _ ≤ _ := hg
        · rw [if_neg h2]
          rw [vwapWalk_stop rest (r - r) _ _ (by norm_num [notionalEps])]
          constructor
          · exact Or.inl (by norm_num [notionalEps])
          · push_neg at h2
            simp only []
            nlinarith

theorem vwapWalk_qty_mono (l : List (ℚ × ℚ)) :
    ∀ r q c : ℚ, (∀ pq ∈ l, 0 < pq.1 ∧ 0 < pq.2) → q ≤ (vwapWalk l r q c).2.1 := by
  induction l with
  | nil => intro r q c _; exact le_refl q
  | cons e rest ih =>
      intro r q c hl
      obtain ⟨p, qq⟩ := e
      have he := hl (p, qq) (List.mem_cons_self _ _)
      have hlr : ∀ pq ∈ rest, 0 < pq.1 ∧ 0 < pq.2 :=
        fun pq hm => hl pq (List.mem_cons_of_mem _ hm)
      have hln : 0 < p * qq := mul_pos he.1 he.2
      unfold vwapWalk
      by_cases h1 : r ≤ notionalEps
      · rw [if_pos h1]
      · rw [if_neg h1, if_neg (not_le.mpr he.2), if_neg (not_le.mpr hln)]
        by_cases h2 : p * qq ≤ r
        · rw [if_pos h2]
          refine le_trans ?_ (ih _ _ _ hlr)
          have : 0 ≤ p * qq / p := le_of_lt (div_pos hln he.1)
          linarith
        · rw [if_neg h2]
          have hr0 : 0 < r := lt_trans (by norm_num [notionalEps]) (not_le.mp h1)
          have : 0 < r / p := div_pos hr0 he.1
          rw [vwapWalk_stop rest (r - r) _ _ (by norm_num [notionalEps])]
          simp only []
          linarith

theorem vwapWalk_qty_pos (l : List (ℚ × ℚ)) (hl : ∀ pq ∈ l, 0 < pq.1 ∧ 0 < pq.2)
    (r : ℚ) (hr : notionalEps < r) (hne : l ≠ []) :
    0 < (vwapWalk l r 0 0).2.1 := by
  cases l with
  | nil => exact absurd rfl hne
  | cons e rest =>
      obtain ⟨p, qq⟩ := e
      have he := hl (p, qq) (List.mem_cons_self _ _)
      have hlr : ∀ pq ∈ rest, 0 < pq.1 ∧ 0 < pq.2 :=
        fun pq hm => hl pq (List.mem_cons_of_mem _ hm)
      have hln : 0 < p * qq := mul_pos he.1 he.2
      unfold vwapWalk
      rw [if_neg (not_le.mpr hr), if_neg (not_le.mpr he.2), if_neg (not_le.mpr hln)]
      by_cases h2 : p * qq ≤ r
      · rw [if_pos h2]
        have hq0 : 0 < p * qq / p := div_pos hln he.1
        calc (0:ℚ) < 0 + p * qq / p := by linarith
          _ ≤ _ := vwapWalk_qty_mono rest _ _ _ hlr
      · rw [if_neg h2]
        have hr0 : 0 < r := lt_trans (by norm_num [notionalEps]) hr
        have hq0 : 0 < r / p := div_pos hr0 he.1
        rw [vwapWalk_stop rest (r - r) _ _ (by norm_num [notionalEps])]
        simp only []
        linarith

/-- NaN characterisation of the walk over positive levels: the walk fails
exactly when the shortfall exceeds the tolerance or nothing was consumed. -/
theorem vwapNaN_iff (l : List (ℚ × ℚ)) (hl : ∀ pq ∈ l, 0 < pq.1 ∧ 0 < pq.2)
    (target : ℚ) (_ht : 0 < target) :
    (notionalEps < (vwapWalk l target 0 0).1 ∨ (vwapWalk l target 0 0).2.1 ≤ 0)
      ↔ (sumNotional l < target - notionalEps ∨ target ≤ notionalEps) := by
  obtain ⟨hchar, hge⟩ := vwapWalk_char l hl target 0 0
  constructor
  · rintro (h | h)
    · rcases hchar with hc | hc
      · exact absurd h (not_lt.mpr hc)
      · left; rw [hc] at h; linarith
    · by_cases hte : target ≤ notionalEps
      · exact Or.inr hte
      · cases hll : l with
        | nil =>
            subst hll
            left
            unfold sumNotional
            unfold vwapWalk at h
            push_neg at hte
            simp only [] at h
            linarith
        | cons x xs =>
            exact absurd h (not_le.mpr (vwapWalk_qty_pos l hl target
              (not_le.mp hte) (by rw [hll]; exact List.cons_ne_nil x xs)))
  · rintro (h | h)
    · left; linarith
    · right
      rw [vwapWalk_stop l target 0 0 h]

/-- The side map `impact_vwap` draws from. -/
def sideMap (book : L2Book) (side : Side) : List (ℚ × ℚ) :=
  match side with
  | .buy => book.asks
  | .sell => book.bids

theorem sumNotional_append (l₁ l₂ : List (ℚ × ℚ)) :
    sumNotional (l₁ ++ l₂) = sumNotional l₁ + sumNotional l₂ := by
  induction l₁ with
  | nil => simp [sumNotional]
  | cons e rest ih =>
      obtain ⟨p, q⟩ := e
      show p * q + sumNotional (rest ++ l₂) = p * q + sumNotional rest + sumNotional l₂
      rw [ih]
      ring

theorem sumNotional_eq_map_sum (l : List (ℚ × ℚ)) :
    sumNotional l = (l.map (fun pq => pq.1 * pq.2)).sum := by
  induction l with
  | nil => rfl
  | cons e rest ih =>
      obtain ⟨p, q⟩ := e
      simp [sumNotional, ih]

theorem sumNotional_perm {l₁ l₂ : List (ℚ × ℚ)} (h : List.Perm l₁ l₂) :
    sumNotional l₁ = sumNotional l₂ := by
  rw [sumNotional_eq_map_sum, sumNotional_eq_map_sum]
  exact (h.map (fun pq => pq.1 * pq.2)).sum_eq

theorem impactVwapLevels_zero_perm (book : L2Book) (side : Side) :
    List.Perm (impactVwapLevels book side 0) (sideMap book side) := by
  cases side
  · simpa [impactVwapLevels, sideMap] using sortAsc_perm book.asks
  · simpa [impactVwapLevels, sideMap] using sortDesc_perm book.bids

theorem impactVwapLevels_take (book : L2Book) (side : Side) (n : ℕ) (hn : n ≠ 0) :
    impactVwapLevels book side n = (impactVwapLevels book side 0).take n := by
  cases side <;> simp [impactVwapLevels, hn]

theorem impactVwapLevels_zero_length (book : L2Book) (side : Side) :
    (impactVwapLevels book side 0).length = sideLen book side := by
  cases side
  · simpa [impactVwapLevels, sideLen] using (sortAsc_perm book.asks).length_eq
  · simpa [impactVwapLevels, sideLen] using (sortDesc_perm book.bids).length_eq

/-- C6 (amended): with a positive target and positive prices and quantities on
the walked side, `impact_vwap(side, target)` succeeds, and it returns NaN
exactly when the side's cumulative notional falls short of the target by more
than the tolerance `eps_notional = 1e-6`, or when the target itself is at most
`1e-6` (the walk consumes nothing).  Exactly sufficient notional therefore
still yields a finite price, and a shortfall of one cent (`0.01 > 1e-6`)
still yields NaN. -/
theorem claim6_impact_vwap_nan (book : L2Book) (side : Side) (target : ℚ)
    (ht : 0 < target)
    (hpos : ∀ pq ∈ sideMap book side, 0 < pq.1 ∧ 0 < pq.2) :
    ∃ r : Option ℚ, impact_vwap book side target 200 = some r ∧
      (r = none ↔
        (sumNotional (sideMap book side) < target - notionalEps ∨
          target ≤ notionalEps)) := by
  have hS := impactVwapLevels_zero_perm book side
  have hSpos : ∀ pq ∈ impactVwapLevels book side 0, 0 < pq.1 ∧ 0 < pq.2 :=
    fun pq hm => hpos pq (hS.subset hm)
  have hsum : sumNotional (impactVwapLevels book side 0) = sumNotional (sideMap book side) :=
    sumNotional_perm hS
  have hTpos : ∀ pq ∈ (impactVwapLevels book side 0).take 200, 0 < pq.1 ∧ 0 < pq.2 :=
    fun pq hm => hSpos pq (List.take_subset 200 _ hm)
  unfold impact_vwap
  rw [if_neg (not_le.mpr ht)]
  rw [impactVwapLevels_take book side 200 (by norm_num)]
  by_cases hlen : sideLen book side ≤ 200
  · have htake : (impactVwapLevels book side 0).take 200 = impactVwapLevels book side 0 :=
      List.take_of_length_le (le_trans (le_of_eq (impactVwapLevels_zero_length book side)) hlen)
    rw [htake]
    have hiff := vwapNaN_iff (impactVwapLevels book side 0) hSpos target ht
    by_cases hnan : (notionalEps < (vwapWalk (impactVwapLevels book side 0) target 0 0).1 ∨
        (vwapWalk (impactVwapLevels book side 0) target 0 0).2.1 ≤ 0)
    · rw [if_pos hnan, if_neg (fun hcon => absurd hcon.2 (not_lt.mpr hlen))]
      refine ⟨none, rfl, ?_⟩
      rw [← hsum]
      exact ⟨fun _ => hiff.mp hnan, fun _ => rfl⟩
    · rw [if_neg hnan]
      refine ⟨some ((vwapWalk (impactVwapLevels book side 0) target 0 0).2.2 /
        (vwapWalk (impactVwapLevels book side 0) target 0 0).2.1), rfl, ?_⟩
      rw [← hsum]
      constructor
      · intro hcon; cases hcon
      · intro hr
        exact absurd (hiff.mpr hr) hnan
  · have hiff := vwapNaN_iff (impactVwapLevels book side 0) hSpos target ht
    by_cases hnan1 : (notionalEps < (vwapWalk ((impactVwapLevels book side 0).take 200) target 0 0).1 ∨
        (vwapWalk ((impactVwapLevels book side 0).take 200) target 0 0).2.1 ≤ 0)
    · rw [if_pos hnan1, if_pos ⟨by norm_num, not_le.mp hlen⟩]
      simp only []
      by_cases hnan2 : (notionalEps < (vwapWalk (impactVwapLevels book side 0) target 0 0).1 ∨
          (vwapWalk (impactVwapLevels book side 0) target 0 0).2.1 ≤ 0)
      · rw [if_pos hnan2]
        refine ⟨none, rfl, ?_⟩
        rw [← hsum]
        exact ⟨fun _ => hiff.mp hnan2, fun _ => rfl⟩
      · rw [if_neg hnan2]
        refine ⟨some ((vwapWalk (impactVwapLevels book side 0) target 0 0).2.2 /
          (vwapWalk (impactVwapLevels book side 0) target 0 0).2.1), rfl, ?_⟩
        rw [← hsum]
        constructor
        · intro hcon; cases hcon
        · intro hr
          exact absurd (hiff.mpr hr) hnan2
    · rw [if_neg hnan1]
      refine ⟨some ((vwapWalk ((impactVwapLevels book side 0).take 200) target 0 0).2.2 /
        (vwapWalk ((impactVwapLevels book side 0).take 200) target 0 0).2.1), rfl, ?_⟩
      push_neg at hnan1
      obtain ⟨hrem, hqty⟩ := hnan1
      have hge := (vwapWalk_char ((impactVwapLevels book side 0).take 200) hTpos target 0 0).2
      have hsplit : sumNotional (impactVwapLevels book side 0)
          = sumNotional ((impactVwapLevels book side 0).take 200)
            + sumNotional ((impactVwapLevels book side 0).drop 200) := by
        rw [← sumNotional_append, List.take_append_drop]
      have hdrop : 0 ≤ sumNotional ((impactVwapLevels book side 0).drop 200) :=
        sumNotional_nonneg _ (fun pq hm => hSpos pq (List.drop_subset 200 _ hm))
      have hteps : notionalEps < target := by
        by_contra hcon
        push_neg at hcon
        rw [vwapWalk_stop _ target 0 0 hcon] at hqty
        simp only [] at hqty
        exact absurd (le_refl (0:ℚ)) (not_le.mpr hqty)
      rw [← hsum]
      constructor
      · intro hcon; cases hcon
      · rintro (hr | hr)
        · rw [hsplit] at hr
          linarith
        · exact absurd hr (not_le.mpr hteps)

/-- C6 counterexample: with one ask level `1 @ 1` (cumulative notional `1`),
a target of `1 + 1e-7` exceeds the available notional, yet `impact_vwap`
returns the finite price `1` because the shortfall `1e-7` is within
`eps_notional = 1e-6`; and a target of `1e-7` is fully coverable yet returns
NaN because the walk consumes nothing.  Both refute "NaN exactly when the
cumulative notional is less than the target". -/
theorem claim6_counterexample :
    sumNotional (sideMap (L2Book.mk [] [(1, 1)]) .buy) = 1 ∧
    (1 : ℚ) < 1 + 1/10^7 ∧
    impact_vwap (L2Book.mk [] [(1, 1)]) .buy (1 + 1/10^7) 200 = some (some 1) ∧
    (1 : ℚ)/10^7 ≤ 1 ∧
    impact_vwap (L2Book.mk [] [(1, 1)]) .buy (1/10^7) 200 = some none := by
  refine ⟨?_, by norm_num, ?_, by norm_num, ?_⟩
  · with_unfolding_all decide
  · with_unfolding_all decide
  · with_unfolding_all decide

/-- C6 witness: the amended theorem applied to the book with the single ask
`100 @ 1`; a target of exactly `100` yields the finite price `100`, while a
target one cent higher (shortfall `0.01 > 1e-6`) yields NaN. -/
theorem claim6_impact_vwap_nan_witness :
    (0:ℚ) < 100 ∧
    (∀ pq ∈ sideMap (L2Book.mk [] [(100, 1)]) .buy, 0 < pq.1 ∧ 0 < pq.2) ∧
    (∃ r : Option ℚ, impact_vwap (L2Book.mk [] [(100, 1)]) .buy 100 200 = some r ∧
      (r = none ↔
        (sumNotional (sideMap (L2Book.mk [] [(100, 1)]) .buy) < 100 - notionalEps ∨
          (100:ℚ) ≤ notionalEps))) ∧
    impact_vwap (L2Book.mk [] [(100, 1)]) .buy 100 200 = some (some 100) ∧
    impact_vwap (L2Book.mk [] [(100, 1)]) .buy (100 + 1/100) 200 = some none := by
  have hp : ∀ pq ∈ sideMap (L2Book.mk [] [(100, 1)]) .buy, 0 < pq.1 ∧ 0 < pq.2 := by
    intro pq hm
    simp only [sideMap, List.mem_singleton] at hm
    subst hm
    exact ⟨by norm_num, by norm_num⟩
  refine ⟨by norm_num, hp,
    claim6_impact_vwap_nan (L2Book.mk [] [(100, 1)]) .buy 100 (by norm_num) hp, ?_, ?_⟩
  · with_unfolding_all decide
  · with_unfolding_all decide

end BtEngine
